import Mathlib

/-!
# A verification model of the GCSFS object-store filesystem

This file gives a shallow embedding, in Lean, of the core of the
`fs_gcsfs` / `gcsfs` Python packages: the path-to-key translation, the
directory-marker model, the listing engine, the directory operations
(`getinfo`, `exists`, `isdir`, `removedir`, `fix_storage`), the
self-healing directory check of the `gcsfs` variant, and the buffered
file-handle proxy (`openbin` / `GCSFile` / the `on_close` hook).

Paths, keys and blob names are modelled as `List Char` (written `Str`
below); Python strings are finite character sequences and every string
operation used by the source (strip, split, join, slicing) is translated
element-wise.  The object store (a GCS bucket) is modelled as an
association list from keys to byte contents; `get_blob`, `upload`,
`delete_blob` and prefix listing are translated against it.

The helpers of the external `fs.path` / `fs.mode` modules that the
source calls (`normpath`, `abspath`, `relpath`, `dirname`, `basename`,
`forcedir`, `Mode`) are translated from the pyfilesystem2 library that
the source imports, since the behaviour of the translated operations
depends on them.
-/



/-- A Python string, as a list of characters. -/
abbrev Str := List Char

/-- Byte-string contents of an object, one natural number (0..255) per byte. -/
abbrev Bytes := List Nat

/-- The filesystem error taxonomy raised by the translated operations
(`fs.errors` in the source), plus the store-side upload failure used to
model a raised exception inside `blob.upload_from_file`. -/
inductive FsError where
  | illegalBackReference
  | invalidCharsInPath
  | resourceNotFound
  | directoryExpected
  | directoryNotEmpty
  | removeRootError
  | fileExists
  | fileExpected
  | destinationExists
  | invalidMode
  | ioError
  | uploadFailed
deriving DecidableEq, Repr

/-- Is this character the delimiter character of the filesystem? -/
def isSlash (c : Char) : Bool := c = '/'

/-- Python `s.lstrip("/")`: drop every leading delimiter. -/
def lstripSlash (s : Str) : Str := s.dropWhile isSlash

/-- Python `s.rstrip("/")`: drop every trailing delimiter. -/
def rstripSlash (s : Str) : Str := (s.reverse.dropWhile isSlash).reverse

/-- Python `s.startswith("/")`. -/
def startsWithSlash : Str → Bool
  | [] => false
  | c :: _ => isSlash c

/-- Python `s.endswith("/")`. -/
def endsWithSlash (s : Str) : Bool := s.getLast? = some '/'

/-- Helper of `splitOnSlash`: accumulates the current segment (reversed). -/
def splitOnSlashAux : Str → Str → List Str
  | [], acc => [acc.reverse]
  | c :: rest, acc =>
    if isSlash c then acc.reverse :: splitOnSlashAux rest []
    else splitOnSlashAux rest (c :: acc)

/-- Python `s.split("/")`. -/
def splitOnSlash (s : Str) : List Str := splitOnSlashAux s []

/-- Python `"/".join(segs)`. -/
def joinSlash : List Str → Str
  | [] => []
  | [c] => c
  | c :: rest => c ++ '/' :: joinSlash rest

/-- The component pass of `fs.path.normpath`: walk the segments of the
split path, dropping empty and `.` segments, popping one component for
every `..` segment, and failing (Python `IndexError` remapped to
`IllegalBackReference`) when `..` pops from an empty component stack.
The accumulator holds the components already kept, in reverse. -/
def normSegs : List Str → List Str → Option (List Str)
  | [], acc => some acc.reverse
  | c :: rest, acc =>
    if c = ['.', '.'] then
      match acc with
      | [] => none
      | _ :: t => normSegs rest t
    else if c = ['.'] ∨ c = [] then normSegs rest acc
    else normSegs rest (c :: acc)

/-- Reassemble a normalized path from its absolute flag and components. -/
def render (abs : Bool) (cs : List Str) : Str :=
  (if abs then ['/'] else []) ++ joinSlash cs

/-- `fs.path.normpath`.  The Python function has an early-out branch
(`path in "/"`, and a regex test for paths needing no normalization that
returns `path.rstrip("/")`); both branches agree extensionally with the
general component pass modelled here, since splitting on `/` and
rejoining the kept components reproduces such paths verbatim. -/
def normpath (p : Str) : Except FsError Str :=
  match normSegs (splitOnSlash p) [] with
  | none => .error .illegalBackReference
  | some cs => .ok (render (startsWithSlash p) cs)

/-- `fs.path.abspath`: prepend the root delimiter if missing. -/
def abspath (p : Str) : Str := if startsWithSlash p then p else '/' :: p

/-- `fs.path.relpath`: `path.lstrip("/")`. -/
def relpath (p : Str) : Str := lstripSlash p

/-- `fs.path.forcedir`: append a trailing delimiter if missing. -/
def forcedir (p : Str) : Str := if endsWithSlash p then p else p ++ ['/']

/-- The characters after the last delimiter of `s`, reversed: the part
`rsplit("/", 1)` keeps as the tail. -/
def lastSeg (s : Str) : Str := s.reverse.takeWhile (fun c => !(isSlash c))

/-- `fs.path.dirname` (the head of `fs.path.split`): everything before
the last delimiter; the empty string when there is no delimiter; the
root when the head would be empty. -/
def dirname (s : Str) : Str :=
  if (lastSeg s).length = s.length then []
  else if s.take (s.length - (lastSeg s).length - 1) = [] then ['/']
  else s.take (s.length - (lastSeg s).length - 1)

/-- `fs.path.basename` (the tail of `fs.path.split`): everything after
the last delimiter, or the whole string when there is none. -/
def basename (s : Str) : Str := (lastSeg s).reverse

/-- `FS.validatepath` of the pyfilesystem2 base class, as configured by
GCSFS (`invalid_path_chars = "\x00"`): reject NUL characters, then
return `abspath(normpath(path))`. -/
def validatepath (p : Str) : Except FsError Str :=
  if (Char.ofNat 0) ∈ p then .error .invalidCharsInPath
  else (normpath p).map abspath

/-- `GCSFS._path_to_key` applied to an already normalized path `np`:
`DELIMITER.join([self._prefix, relpath(np)]).lstrip("/").rstrip("/")`. -/
def mkKey (pfx np : Str) : Str :=
  rstripSlash (lstripSlash (pfx ++ '/' :: lstripSlash np))

/-- `GCSFS._path_to_key` (fs_gcsfs variant): normalize, then join with
the configured root prefix and strip delimiters at both ends. -/
def pathToKey (pfx p : Str) : Except FsError Str :=
  (normpath p).map (mkKey pfx)

/-- `GCSFS._path_to_dir_key` applied to an already normalized path. -/
def mkDirKey (pfx np : Str) : Str := mkKey pfx np ++ ['/']

/-- `GCSFS._path_to_dir_key` (fs_gcsfs variant): the key plus a trailing
delimiter. -/
def pathToDirKey (pfx p : Str) : Except FsError Str :=
  (pathToKey pfx p).map (fun k => k ++ ['/'])

/-- The prefix computed by the GCSFS constructor from the configured
root path: `relpath(normpath(root_path)).rstrip(DELIMITER)`. -/
def mkPrefix (rootPath : Str) : Except FsError Str :=
  (normpath rootPath).map (fun nr => rstripSlash (relpath nr))

deriving instance DecidableEq for Except

/-- An object stored in the bucket: its flat key and its byte content. -/
structure Blob where
  name : Str
  content : Bytes
deriving DecidableEq, Repr

/-- The object store: the bucket is a finite sequence of named objects.
GCS keys are unique; buckets produced by the modelled operations keep
this invariant, and lookups return the first match. -/
abbrev Bucket := List Blob

/-- `bucket.get_blob(key)`: the object stored at exactly `key`, if any. -/
def getBlob (bkt : Bucket) (k : Str) : Option Blob :=
  bkt.find? (fun b => b.name = k)

/-- `GCSFS._get_blob` of the gcsfs variant: it strips trailing
delimiters from the key before the point lookup. -/
def getBlobR (bkt : Bucket) (k : Str) : Option Blob :=
  getBlob bkt (rstripSlash k)

/-- `blob.upload_from_string` / `blob.upload_from_file`: store `c` at
key `k`, replacing the existing object at `k` if present. -/
def putBlob : Bucket → Str → Bytes → Bucket
  | [], k, c => [⟨k, c⟩]
  | b :: rest, k, c =>
    if b.name = k then ⟨k, c⟩ :: rest else b :: putBlob rest k c

/-- Remove the object named `k` (first occurrence) from the bucket. -/
def eraseBlob : Bucket → Str → Bucket
  | [], _ => []
  | b :: rest, k => if b.name = k then rest else b :: eraseBlob rest k

/-- `bucket.delete_blob(key)`: raises google `NotFound` when the key is
absent, which every caller in the source remaps to `ResourceNotFound`. -/
def deleteBlob (bkt : Bucket) (k : Str) : Except FsError Bucket :=
  if (getBlob bkt k).isSome then .ok (eraseBlob bkt k)
  else .error .resourceNotFound

/-- `bucket.list_blobs(prefix=pfx)` without a delimiter: every object
whose key starts with `pfx`, in bucket order (one page in the model). -/
def listBlobsP (bkt : Bucket) (pfx : Str) : List Blob :=
  bkt.filter (fun b => pfx.isPrefixOf b.name)

/-- The items of `bucket.list_blobs(prefix=pfx, delimiter="/")`: the
objects under `pfx` whose remaining key contains no further delimiter. -/
def listItems (bkt : Bucket) (pfx : Str) : List Blob :=
  bkt.filter (fun b =>
    pfx.isPrefixOf b.name && !((b.name.drop pfx.length).contains '/'))

/-- The common prefixes of `bucket.list_blobs(prefix=pfx, delimiter="/")`:
for every object under `pfx` whose remaining key contains a delimiter,
the key up to and including the first such delimiter, deduplicated. -/
def commonPrefixes (bkt : Bucket) (pfx : Str) : List Str :=
  ((bkt.filter (fun b =>
      pfx.isPrefixOf b.name && (b.name.drop pfx.length).contains '/')).map
    (fun b =>
      pfx ++ (b.name.drop pfx.length).takeWhile (fun c => !(isSlash c)) ++ ['/'])).dedup

/-- The filesystem entry descriptor returned by stat and list
operations (`fs.info.Info`), restricted to the fields the source
populates in its basic namespace: the entry name and the directory
flag. -/
structure Info where
  name : Str
  is_dir : Bool
deriving DecidableEq, Repr

/-- `GCSFS._info_from_blob`: a file entry named by the basename of the
key with trailing delimiters stripped; never a directory. -/
def infoFromBlob (b : Blob) : Info :=
  ⟨basename (rstripSlash b.name), false⟩

/-- `GCSFS._dir_info`: a synthetic directory entry, trailing delimiter
stripped from the name. -/
def dirInfo (nm : Str) : Info := ⟨rstripSlash nm, true⟩

/-- `fs.mode.Mode`: the flags of an open mode string (the `t`/`b` text
flags play no role in the translated operations). -/
structure Mode where
  r : Bool
  w : Bool
  a : Bool
  x : Bool
  plus : Bool
deriving DecidableEq, Repr

/-- `Mode.create`: any of `a`, `w`, `x` present. -/
def Mode.create (m : Mode) : Bool := m.a || m.w || m.x

/-- `Mode.writing`: any of `w`, `a`, `+`, `x` present. -/
def Mode.writing (m : Mode) : Bool := m.w || m.a || m.plus || m.x

/-- `Mode.reading`: `r` or `+` present. -/
def Mode.reading (m : Mode) : Bool := m.r || m.plus

/-- `Mode.appending`: `a` present. -/
def Mode.appending (m : Mode) : Bool := m.a

/-- `Mode.exclusive`: `x` present. -/
def Mode.exclusive (m : Mode) : Bool := m.x

/-- `Mode.validate` as far as the flag set is concerned: at least one of
`r`, `w`, `x`, `a` must be present. -/
def Mode.validBin (m : Mode) : Bool := m.r || m.w || m.x || m.a

/-- The mode `"wb"`. -/
def modeWb : Mode := ⟨false, true, false, false, false⟩

/-- The mode `"rb"`. -/
def modeRb : Mode := ⟨true, false, false, false, false⟩

/-- The local temporary-file buffer backing a `GCSFile` proxy: its byte
content, the cursor, and whether the buffer resource has been released
(`tempfile` closed).  In every modelled flow the cursor stays within
`[0, buf.length]`. -/
structure GCSFileSt where
  buf : Bytes
  pos : Nat
  closed : Bool
deriving DecidableEq, Repr

/-- The buffer created by `GCSFile.factory`: a fresh empty temporary
file, cursor at the start, not yet released. -/
def emptyFile : GCSFileSt := ⟨[], 0, false⟩

/-- `raw.seek(n)` (absolute). -/
def seekSet (f : GCSFileSt) (n : Nat) : GCSFileSt := { f with pos := n }

/-- Write `b` into the buffer at the cursor, overwriting in place and
extending past the end, cursor advancing past the written bytes.  Both
`GCSFile.write` and `blob.download_to_file(raw)` mutate the buffer this
way. -/
def writeAt (f : GCSFileSt) (b : Bytes) : GCSFileSt :=
  { f with
    buf := f.buf.take f.pos ++ b ++ f.buf.drop (f.pos + b.length)
    pos := f.pos + b.length }

/-- `GCSFile.write(b)`: guarded by `Mode.writing` (Python `IOError`). -/
def gcsWrite (m : Mode) (f : GCSFileSt) (b : Bytes) : Except FsError GCSFileSt :=
  if m.writing then .ok (writeAt f b) else .error .ioError

/-- `GCSFile.read(-1)`: guarded by `Mode.reading`; returns the buffer
from the cursor to the end. -/
def gcsRead (m : Mode) (f : GCSFileSt) : Except FsError Bytes :=
  if m.reading then .ok (f.buf.drop f.pos) else .error .ioError

/-- The `on_close` hook installed by `GCSFS.openbin`, invoked by
`GCSFile.close`.  For create/write intents it seeks the buffer to the
start and uploads it in full as the new object content (the
`content_type` guess is metadata only and not modelled); then — only
reached when the upload did not raise — it releases the buffer.
`uploadFails` selects whether the store-side upload raises; the pair
returned is the outcome (new bucket, or the propagated error) together
with the buffer state the caller is left holding. -/
def onCloseModel (uploadFails : Bool) (m : Mode) (key : Str) (bkt : Bucket)
    (f : GCSFileSt) : Except FsError Bucket × GCSFileSt :=
  if m.create || m.writing then
    let f1 := seekSet f 0
    if uploadFails then (.error .uploadFailed, f1)
    else
      (.ok (putBlob bkt key (f1.buf.drop f1.pos)),
       { f1 with pos := f1.buf.length, closed := true })
  else (.ok bkt, { f with closed := true })

/-- `GCSFS.getinfo(path, check_parent_dir)` (fs_gcsfs variant): validate
the path; with the parent check enabled, raise `ResourceNotFound` when
the parent directory is not the root and carries no marker object; the
root itself is always a directory with an empty name; otherwise a blob
at the exact key yields a file entry, else a blob at the dir-key yields
a directory entry (named by the raw `path` argument), else
`ResourceNotFound`. -/
def getinfoModel (pfx : Str) (bkt : Bucket) (path : Str) (checkParentDir : Bool) :
    Except FsError Info :=
  match validatepath path with
  | .error e => .error e
  | .ok np =>
    let parentStep : Except FsError Unit :=
      if checkParentDir then
        match pathToDirKey pfx (dirname np) with
        | .error e => .error e
        | .ok pk =>
          if dirname np ≠ ['/'] ∧ getBlob bkt pk = none then .error .resourceNotFound
          else .ok ()
      else .ok ()
    match parentStep with
    | .error e => .error e
    | .ok _ =>
      if np = ['/'] then .ok (dirInfo [])
      else
        match pathToKey pfx np with
        | .error e => .error e
        | .ok key =>
          match getBlob bkt key with
          | some blb => .ok (infoFromBlob blb)
          | none =>
            match getBlob bkt (key ++ ['/']) with
            | some _ => .ok (dirInfo path)
            | none => .error .resourceNotFound

/-- `GCSFS.isdir(path)`: `getinfo` without the parent check, catching
only `ResourceNotFound` (anything else, e.g. an illegal back reference,
propagates). -/
def isdirModel (pfx : Str) (bkt : Bucket) (path : Str) : Except FsError Bool :=
  match getinfoModel pfx bkt path false with
  | .ok i => .ok i.is_dir
  | .error .resourceNotFound => .ok false
  | .error e => .error e

/-- `GCSFS.exists(path)`: true at the root; true when a blob sits at the
exact key (note: no parent check); otherwise defer to `isdir`. -/
def existsModel (pfx : Str) (bkt : Bucket) (path : Str) : Except FsError Bool :=
  match validatepath path with
  | .error e => .error e
  | .ok np =>
    if np = ['/'] then .ok true
    else
      match pathToKey pfx path with
      | .error e => .error e
      | .ok k =>
        if (getBlob bkt k).isSome then .ok true
        else isdirModel pfx bkt path

/-- `GCSFS._path_to_key` of the gcsfs variant (with the default
delimiter `"/"`, for which `replace("/", delimiter)` is the identity):
join with the prefix and strip only leading delimiters. -/
def mkKeyG (pfx np : Str) : Str := lstripSlash (pfx ++ '/' :: lstripSlash np)

/-- `GCSFS._path_to_dir_key` of the gcsfs variant: `forcedir` of the
key. -/
def pathToDirKeyG (pfx p : Str) : Except FsError Str :=
  (normpath p).map (fun np => forcedir (mkKeyG pfx np))

/-- `GCSFS._check_and_fix_dir(path)` of the gcsfs (self-healing)
variant: if a blob sits at the dir-key, the directory exists; otherwise
list one page under the dir-key, and if any object shows up, create the
missing zero-byte marker as a side effect and report the directory as
existing; else report absence and leave the bucket unchanged.  Returns
the verdict together with the (possibly repaired) bucket. -/
def checkAndFixDir (pfx : Str) (bkt : Bucket) (path : Str) :
    Except FsError (Bool × Bucket) :=
  match pathToDirKeyG pfx path with
  | .error e => .error e
  | .ok dk =>
    if (getBlob bkt dk).isSome then .ok (true, bkt)
    else
      if (listBlobsP bkt dk).length > 0 then .ok (true, putBlob bkt dk [])
      else .ok (false, bkt)

/-- `GCSFS._scandir(path)` (names variant): require `path` to be a
directory via `getinfo`; list with the dir-key as prefix (empty prefix
for the root); yield the common prefixes as directory names (prefix and
trailing delimiter stripped) and then every item except the marker of
the listed directory itself. -/
def scandirList (pfx : Str) (bkt : Bucket) (path : Str) :
    Except FsError (List Str) :=
  match validatepath path with
  | .error e => .error e
  | .ok np =>
    match getinfoModel pfx bkt np true with
    | .error e => .error e
    | .ok info =>
      if info.is_dir = false then .error .directoryExpected
      else
        match pathToDirKey pfx np with
        | .error e => .error e
        | .ok dk =>
          let lpfx := if dk = ['/'] then ([] : Str) else dk
          let dirNames := (commonPrefixes bkt lpfx).map
            (fun d => rstripSlash (d.drop lpfx.length))
          let fileNames := ((listItems bkt lpfx).filter
            (fun b => !(b.name = dk : Bool))).map
            (fun b => b.name.drop lpfx.length)
          .ok (dirNames ++ fileNames)

/-- `FS.isempty(path)` of the pyfilesystem2 base class: normalize,
require a directory, and test whether the directory scan yields any
entry. -/
def isemptyModel (pfx : Str) (bkt : Bucket) (path : Str) :
    Except FsError Bool :=
  match validatepath path with
  | .error e => .error e
  | .ok np =>
    match getinfoModel pfx bkt np true with
    | .error e => .error e
    | .ok i =>
      if i.is_dir = false then .error .directoryExpected
      else
        match scandirList pfx bkt np with
        | .error e => .error e
        | .ok l => .ok l.isEmpty

/-- `GCSFS.removedir(path)`: validate; `RemoveRootError` at the root
before any store access; `getinfo` (with parent check) must yield a
directory, else `DirectoryExpected`; the directory must be empty, else
`DirectoryNotEmpty`; then delete the marker blob at the dir-key,
remapping a store `NotFound` to `ResourceNotFound`. -/
def removedirModel (pfx : Str) (bkt : Bucket) (path : Str) :
    Except FsError Bucket :=
  match validatepath path with
  | .error e => .error e
  | .ok np =>
    if np = ['/'] then .error .removeRootError
    else
      match getinfoModel pfx bkt np true with
      | .error e => .error e
      | .ok info =>
        if info.is_dir = false then .error .directoryExpected
        else
          match isemptyModel pfx bkt path with
          | .error e => .error e
          | .ok emp =>
            if emp = false then .error .directoryNotEmpty
            else
              match pathToDirKey pfx np with
              | .error e => .error e
              | .ok dk => deleteBlob bkt dk

/-- `GCSFS.openbin(path, mode)` (fs_gcsfs variant), up to the returned
handle.  Create intents check the parent directory marker and probe the
target (`FileExists` under exclusive create, `FileExpected` on a
directory), then hand out a fresh buffer, pre-filled with the existing
object when appending; read intents in strict mode require the target
to be a file, then download the object into the buffer and seek to the
start. -/
def openbinModel (pfx : Str) (strict : Bool) (bkt : Bucket) (path : Str)
    (m : Mode) : Except FsError GCSFileSt :=
  if m.validBin = false then .error .invalidMode
  else
    match validatepath path with
    | .error e => .error e
    | .ok np =>
      match pathToKey pfx np with
      | .error e => .error e
      | .ok key =>
        if m.create then
          let dirStep : Except FsError Unit :=
            if dirname np ≠ ['/'] then
              match pathToDirKey pfx (dirname np) with
              | .error e => .error e
              | .ok dk =>
                if getBlob bkt dk = none then .error .resourceNotFound else .ok ()
            else .ok ()
          match dirStep with
          | .error e => .error e
          | .ok _ =>
            let infoStep : Except FsError Unit :=
              match getinfoModel pfx bkt path true with
              | .error .resourceNotFound => .ok ()
              | .error e => .error e
              | .ok info =>
                if m.exclusive then .error .fileExists
                else if info.is_dir then .error .fileExpected
                else .ok ()
            match infoStep with
            | .error e => .error e
            | .ok _ =>
              if m.appending then
                match getBlob bkt key with
                | some blb =>
                  .ok (writeAt (seekSet emptyFile emptyFile.buf.length) blb.content)
                | none => .ok emptyFile
              else .ok emptyFile
        else
          let strictStep : Except FsError Unit :=
            if strict then
              match getinfoModel pfx bkt path true with
              | .error e => .error e
              | .ok info => if info.is_dir then .error .fileExpected else .ok ()
            else .ok ()
          match strictStep with
          | .error e => .error e
          | .ok _ =>
            match getBlob bkt key with
            | none => .error .resourceNotFound
            | some blb => .ok (seekSet (writeAt emptyFile blb.content) 0)

/-- Writing a byte string to a path through the handle returned by
`openbin(path, "wb")` and closing it: the composition of `openbin`,
`GCSFile.write` and `GCSFile.close` (whose `on_close` uploads the
buffer), with a store that does not raise on upload. -/
def writeFileModel (pfx : Str) (strict : Bool) (bkt : Bucket) (path : Str)
    (b : Bytes) : Except FsError Bucket :=
  match validatepath path with
  | .error e => .error e
  | .ok np =>
    match pathToKey pfx np with
    | .error e => .error e
    | .ok key =>
      match openbinModel pfx strict bkt path modeWb with
      | .error e => .error e
      | .ok f0 =>
        match gcsWrite modeWb f0 b with
        | .error e => .error e
        | .ok f1 => (onCloseModel false modeWb key bkt f1).1

/-- Opening a path with `openbin(path, "rb")` and reading it in full. -/
def readFileModel (pfx : Str) (strict : Bool) (bkt : Bucket) (path : Str) :
    Except FsError Bytes :=
  match openbinModel pfx strict bkt path modeRb with
  | .error e => .error e
  | .ok f => gcsRead modeRb f

/-- The `while name != self.root_path: all_dirs.add(name); name = dirname(name)`
loop of `GCSFS.fix_storage`, with explicit fuel.  Each `dirname` step
strictly shortens the string except at the fixpoints `""` and `"/"`, so
`length + 1` steps of fuel reproduce every terminating run of the
Python loop (on the inputs where the Python loop does not terminate,
the model truncates instead). -/
def dirnameChain : Nat → Str → Str → List Str
  | 0, _, _ => []
  | n + 1, nm, root => if nm = root then [] else nm :: dirnameChain n (dirname nm) root

/-- The ancestor directories implied by an object key, as collected by
`fix_storage`: the `dirname` chain starting at `dirname key`, stopping
at the configured root path. -/
def impliedAncestors (key root : Str) : List Str :=
  dirnameChain (key.length + 1) (dirname key) root

/-- The `marked_dirs` set of `fix_storage`: the `dirname` of every
listed blob name ending in the delimiter (a directory marker). -/
def markedDirs (names : List Str) : List Str :=
  (names.filter endsWithSlash).map dirname

/-- The `all_dirs` set of `fix_storage`: every ancestor implied by any
listed name, plus the root path itself when it is not the bucket root. -/
def allDirs (names : List Str) (root : Str) : List Str :=
  (names.map (fun n => impliedAncestors n root)).flatten ++
    (if forcedir root ≠ ['/'] then [root] else [])

/-- `GCSFS.fix_storage`: list every blob under the raw `root_path`,
collect the implied ancestor directories and the already marked ones,
and upload an empty marker `forcedir(d)` for every unmarked directory.
Python iterates sets (unordered, deduplicated); the model iterates the
collection list directly, which reaches the same store state since
`putBlob` at the same key is idempotent for empty content and distinct
keys commute. -/
def fixStorageModel (bkt : Bucket) (root : Str) : Bucket :=
  let names := (listBlobsP bkt root).map Blob.name
  let unmarked := (allDirs names root).filter (fun d => d ∉ markedDirs names)
  unmarked.foldl (fun acc d => putBlob acc (forcedir d) []) bkt

/-- A good path segment: nonempty, not a dot segment, and free of the
delimiter.  `normSegs` keeps exactly such segments. -/
def GoodSeg (c : Str) : Prop :=
  c ≠ [] ∧ c ≠ ['.'] ∧ c ≠ ['.', '.'] ∧ '/' ∉ c

/-- All segments of the list are good. -/
def Good (cs : List Str) : Prop := ∀ c ∈ cs, GoodSeg c

instance : DecidablePred GoodSeg := fun c => by unfold GoodSeg; infer_instance

instance : DecidablePred Good := fun cs => by unfold Good; infer_instance

/-- Modelled from the spec: the source defines only the forward
translation `_path_to_key`; the reversibility invariant in the spec
refers to its inverse `key_to_path`, which is absent from the source and
is defined here from the spec wording by stripping the configured root
prefix from the key and restoring the leading delimiter (the key equal
to the prefix itself maps back to the filesystem root). -/
def keyToPath (pfx k : Str) : Str :=
  if pfx = [] then '/' :: k
  else if k = pfx then ['/']
  else '/' :: k.drop (pfx.length + 1)

/-- Helper of `ancList`, structurally recursive on the reversed
component list. -/
def ancListRev : List Str → List Str
  | [] => []
  | c :: rest => joinSlash ((c :: rest).reverse) :: ancListRev rest

/-- The descending list of ancestor directories of a component list:
the join of every nonempty initial segment, longest first.  This is the
closed form of the `dirname` chain walked by `fix_storage`. -/
def ancList (cs : List Str) : List Str := ancListRev cs.reverse

/-- A canonical GCS object name: a nonempty sequence of good path
segments joined by the delimiter, optionally (for a directory marker)
followed by one trailing delimiter.  This is the on-bucket layout the
system itself maintains. -/
def CanonicalName (n : Str) : Prop :=
  ∃ cs, Good cs ∧ cs ≠ [] ∧ (n = joinSlash cs ∨ n = joinSlash cs ++ ['/'])

/-- Every object name in the bucket is canonical. -/
def CanonicalBucket (bkt : Bucket) : Prop := ∀ b ∈ bkt, CanonicalName b.name

theorem sanity_normpath_examples :
    normpath "abc/def/".data = .ok "abc/def".data ∧
    normpath "/foo/bar/../baz".data = .ok "/foo/baz".data ∧
    normpath "..".data = .error .illegalBackReference ∧
    normpath "/".data = .ok "/".data ∧
    normpath "".data = .ok "".data := by
  decide

theorem sanity_ops_examples :
    getinfoModel [] [⟨"foo/".data, []⟩, ⟨"foo/a".data, [7]⟩] "/foo/a".data true
      = .ok ⟨"a".data, false⟩ ∧
    getinfoModel [] [⟨"foo/a".data, [7]⟩] "/foo/a".data true
      = .error .resourceNotFound ∧
    existsModel [] [⟨"foo/a".data, [7]⟩] "/foo/a".data = .ok true ∧
    removedirModel [] [⟨"foo/".data, []⟩] "/foo".data = .ok [] ∧
    removedirModel [] [⟨"foo/".data, []⟩, ⟨"foo/a".data, [7]⟩] "/foo".data
      = .error .directoryNotEmpty ∧
    writeFileModel [] true [] "/x".data [1, 2, 3] = .ok [⟨"x".data, [1, 2, 3]⟩] ∧
    readFileModel [] true [⟨"x".data, [1, 2, 3]⟩] "/x".data = .ok [1, 2, 3] := by
  decide

theorem sanity_fix_storage_example :
    (getBlob (fixStorageModel [⟨"foo/test".data, [1]⟩, ⟨"foo/bar/test".data, [1]⟩] []) "foo/bar/".data).isSome = true := by
  decide

theorem dropWhile_cons_false {p : Char → Bool} {a : Char} {l : Str} (h : p a = false) :
    List.dropWhile p (a :: l) = a :: l := by
  simp [List.dropWhile_cons, h]

theorem head?_dropWhile_false (p : Char → Bool) :
    ∀ (l : Str) (a : Char), (List.dropWhile p l).head? = some a → p a = false := by
  intro l
  induction l with
  | nil => intro a h; simp [List.dropWhile] at h
  | cons b t ih =>
    intro a h
    rw [List.dropWhile_cons] at h
    cases hb : p b with
    | true =>
      rw [hb] at h
      simp only [if_true] at h
      exact ih a h
    | false =>
      rw [hb] at h
      simp only [Bool.false_eq_true, if_false, List.head?_cons, Option.some.injEq] at h
      rw [← h]
      exact hb

theorem lstrip_self_of_not_starts {s : Str} (h : startsWithSlash s = false) :
    lstripSlash s = s := by
  cases s with
  | nil => rfl
  | cons a t =>
    simp only [startsWithSlash] at h
    exact dropWhile_cons_false h

theorem lstripSlash_cons_slash (s : Str) : lstripSlash ('/' :: s) = lstripSlash s := by
  simp [lstripSlash, List.dropWhile_cons, isSlash]

theorem rstrip_self_of_not_ends {s : Str} (h : endsWithSlash s = false) :
    rstripSlash s = s := by
  unfold rstripSlash
  cases hr : s.reverse with
  | nil =>
    have : s = [] := by
      have := congrArg List.reverse hr
      simpa using this
    simp [this]
  | cons a t =>
    have ha : isSlash a = false := by
      unfold endsWithSlash at h
      have : s.reverse.head? = s.getLast? := List.head?_reverse s
      rw [hr] at this
      simp only [List.head?_cons] at this
      by_contra hc
      simp only [Bool.not_eq_false, isSlash, decide_eq_true_eq] at hc
      rw [hc] at this
      rw [← this] at h
      simp [endsWithSlash] at h
    rw [dropWhile_cons_false ha, ← hr]
    simp

theorem rstripSlash_append_slash (s : Str) : rstripSlash (s ++ ['/']) = rstripSlash s := by
  unfold rstripSlash
  rw [List.reverse_append]
  simp [List.dropWhile_cons, isSlash]

theorem endsWith_rstripSlash_false (s : Str) : endsWithSlash (rstripSlash s) = false := by
  unfold endsWithSlash
  cases hl : (rstripSlash s).getLast? with
  | none => rfl
  | some a =>
    have hh : (rstripSlash s).reverse.head? = some a := by
      rw [List.head?_reverse]; exact hl
    unfold rstripSlash at hh
    rw [List.reverse_reverse] at hh
    have := head?_dropWhile_false isSlash s.reverse a hh
    simp only [isSlash, decide_eq_false_iff_not] at this
    simp [this]

theorem joinSlash_cons_cons (c d : Str) (cs : List Str) :
    joinSlash (c :: d :: cs) = c ++ '/' :: joinSlash (d :: cs) := rfl

theorem goodSeg_head_not_slash {c : Str} (h : GoodSeg c) :
    ∃ a t, c = a :: t ∧ isSlash a = false := by
  obtain ⟨hne, -, -, hmem⟩ := h
  cases c with
  | nil => exact absurd rfl hne
  | cons a t =>
    refine ⟨a, t, rfl, ?_⟩
    simp only [isSlash, decide_eq_false_iff_not]
    intro ha
    exact hmem (by rw [ha]; exact List.mem_cons_self _ _)

theorem joinSlash_ne_nil {cs : List Str} (hg : Good cs) (hne : cs ≠ []) :
    joinSlash cs ≠ [] := by
  cases cs with
  | nil => exact absurd rfl hne
  | cons c rest =>
    obtain ⟨a, t, hc, -⟩ := goodSeg_head_not_slash (hg c (List.mem_cons_self c rest))
    cases rest with
    | nil => simp [joinSlash, hc]
    | cons d rest2 => simp [joinSlash_cons_cons, hc]

theorem startsWith_joinSlash_false {cs : List Str} (hg : Good cs) :
    startsWithSlash (joinSlash cs) = false := by
  cases cs with
  | nil => rfl
  | cons c rest =>
    obtain ⟨a, t, hc, ha⟩ := goodSeg_head_not_slash (hg c (List.mem_cons_self c rest))
    cases rest with
    | nil => simp [joinSlash, hc, startsWithSlash, ha]
    | cons d rest2 => simp [joinSlash_cons_cons, hc, startsWithSlash, ha]

theorem lstrip_joinSlash {cs : List Str} (hg : Good cs) :
    lstripSlash (joinSlash cs) = joinSlash cs :=
  lstrip_self_of_not_starts (startsWith_joinSlash_false hg)

theorem getLast?_ne_slash_of_not_mem {c : Str} (h : '/' ∉ c) :
    c.getLast? ≠ some '/' := by
  intro hl
  cases c with
  | nil => simp at hl
  | cons a t =>
    have : '/' ∈ a :: t := by
      have h2 := List.getLast?_eq_getLast_of_ne_nil (l := a :: t) (by simp)
      rw [h2] at hl
      simp only [Option.some.injEq] at hl
      rw [← hl]
      exact List.getLast_mem _
    exact h this

theorem endsWith_joinSlash_false {cs : List Str} (hg : Good cs) :
    endsWithSlash (joinSlash cs) = false := by
  induction cs with
  | nil => rfl
  | cons c rest ih =>
    cases rest with
    | nil =>
      have := getLast?_ne_slash_of_not_mem (hg c (List.mem_cons_self c [])).2.2.2
      simp [joinSlash, endsWithSlash, this]
    | cons d rest2 =>
      rw [joinSlash_cons_cons]
      have hrest : Good (d :: rest2) := fun x hx => hg x (List.mem_cons_of_mem c hx)
      have hne : joinSlash (d :: rest2) ≠ [] := joinSlash_ne_nil hrest (by simp)
      have ihr := ih hrest
      unfold endsWithSlash at ihr ⊢
      rw [List.getLast?_append]
      cases hj : (joinSlash (d :: rest2)).getLast? with
      | none =>
        exact absurd (List.getLast?_eq_none_iff.mp hj) hne
      | some x =>
        rw [hj] at ihr
        have : ('/' :: joinSlash (d :: rest2)).getLast? = some x := by
          have h2 : joinSlash (d :: rest2) ++ [] = joinSlash (d :: rest2) := by simp
          rw [List.getLast?_cons, hj]
          simp
        rw [this]
        exact ihr

theorem rstrip_joinSlash {cs : List Str} (hg : Good cs) :
    rstripSlash (joinSlash cs) = joinSlash cs :=
  rstrip_self_of_not_ends (endsWith_joinSlash_false hg)

theorem joinSlash_append {ps cs : List Str} (hp : ps ≠ []) (hc : cs ≠ []) :
    joinSlash (ps ++ cs) = joinSlash ps ++ '/' :: joinSlash cs := by
  induction ps with
  | nil => exact absurd rfl hp
  | cons a ps2 ih =>
    cases ps2 with
    | nil =>
      cases cs with
      | nil => exact absurd rfl hc
      | cons d cs2 => simp [joinSlash_cons_cons, joinSlash]
    | cons b ps3 =>
      have ihh := ih (by simp)
      have h1 : (a :: b :: ps3) ++ cs = a :: ((b :: ps3) ++ cs) := by simp
      rw [h1]
      have h2 : (b :: ps3) ++ cs = b :: (ps3 ++ cs) := by simp
      have h3 : joinSlash (a :: ((b :: ps3) ++ cs))
          = a ++ '/' :: joinSlash ((b :: ps3) ++ cs) := by
        rw [h2]
        exact joinSlash_cons_cons a b (ps3 ++ cs)
      rw [h3, ihh, joinSlash_cons_cons]
      simp

theorem takeWhile_all {p : Char → Bool} :
    ∀ {l : Str}, (∀ a ∈ l, p a = true) → List.takeWhile p l = l := by
  intro l
  induction l with
  | nil => intro _; rfl
  | cons b t ih =>
    intro h
    rw [List.takeWhile_cons, h b (List.mem_cons_self _ _)]
    simp only [if_true]
    rw [ih (fun a ha => h a (List.mem_cons_of_mem b ha))]

theorem takeWhile_append_stop {p : Char → Bool} {b : Char} (l₂ : Str) :
    ∀ {l₁ : Str}, (∀ a ∈ l₁, p a = true) → p b = false →
      List.takeWhile p (l₁ ++ b :: l₂) = l₁ := by
  intro l₁
  induction l₁ with
  | nil =>
    intro _ hb
    simp [List.takeWhile_cons, hb]
  | cons a t ih =>
    intro h hb
    rw [List.cons_append, List.takeWhile_cons, h a (List.mem_cons_self _ _)]
    simp only [if_true]
    rw [ih (fun x hx => h x (List.mem_cons_of_mem a hx)) hb]

theorem lastSeg_no_slash {s : Str} (h : '/' ∉ s) : lastSeg s = s.reverse := by
  unfold lastSeg
  have hall : ∀ a ∈ s.reverse, (!(isSlash a)) = true := by
    intro a ha
    rw [List.mem_reverse] at ha
    simp only [isSlash, Bool.not_eq_true', decide_eq_false_iff_not]
    intro hc
    exact h (by rw [← hc]; exact ha)
  exact takeWhile_all hall

theorem dirname_no_slash {s : Str} (h : '/' ∉ s) : dirname s = [] := by
  unfold dirname
  rw [lastSeg_no_slash h]
  simp

theorem lastSeg_append_sep {a c : Str} (hc : '/' ∉ c) :
    lastSeg (a ++ '/' :: c) = c.reverse := by
  unfold lastSeg
  have hrev : (a ++ '/' :: c).reverse = c.reverse ++ '/' :: a.reverse := by
    simp
  have hall : ∀ x ∈ c.reverse, (!(isSlash x)) = true := by
    intro x hx
    rw [List.mem_reverse] at hx
    simp only [isSlash, Bool.not_eq_true', decide_eq_false_iff_not]
    intro hcx
    exact hc (by rw [← hcx]; exact hx)
  have hslash : (!(isSlash '/')) = false := by simp [isSlash]
  rw [hrev, takeWhile_append_stop a.reverse hall hslash]

theorem dirname_append_sep {a c : Str} (hc : '/' ∉ c) :
    dirname (a ++ '/' :: c) = if a = [] then ['/'] else a := by
  unfold dirname
  rw [lastSeg_append_sep hc]
  have hlen : c.reverse.length = c.length := List.length_reverse c
  have hlen2 : (a ++ '/' :: c).length = a.length + 1 + c.length := by
    simp [List.length_append]
    omega
  rw [hlen, hlen2]
  have hne : ¬(c.length = a.length + 1 + c.length) := by omega
  rw [if_neg hne]
  have htake : a.length + 1 + c.length - c.length - 1 = a.length := by omega
  rw [htake]
  rw [show (a ++ '/' :: c).take a.length = a from List.take_left a ('/' :: c)]

theorem dirname_append_slash (a : Str) :
    dirname (a ++ ['/']) = if a = [] then ['/'] else a := by
  have := dirname_append_sep (a := a) (c := []) (by simp)
  simpa using this

theorem dirname_join_concat {cs : List Str} {c : Str} (hg : Good cs)
    (hgc : GoodSeg c) (hne : cs ≠ []) :
    dirname (joinSlash (cs ++ [c])) = joinSlash cs := by
  rw [joinSlash_append hne (by simp)]
  have hj : joinSlash [c] = c := rfl
  rw [hj, dirname_append_sep hgc.2.2.2, if_neg (joinSlash_ne_nil hg hne)]

theorem dirname_join_marker {cs : List Str} (hg : Good cs) (hne : cs ≠ []) :
    dirname (joinSlash cs ++ ['/']) = joinSlash cs := by
  rw [dirname_append_slash, if_neg (joinSlash_ne_nil hg hne)]

theorem startsWith_append_left {x : Str} (y : Str) (hx : x ≠ []) :
    startsWithSlash (x ++ y) = startsWithSlash x := by
  cases x with
  | nil => exact absurd rfl hx
  | cons a t => rfl

theorem splitOnSlashAux_no_slash_mem :
    ∀ (s acc : Str), '/' ∉ acc → ∀ x ∈ splitOnSlashAux s acc, '/' ∉ x := by
  intro s
  induction s with
  | nil =>
    intro acc hacc x hx
    simp only [splitOnSlashAux, List.mem_singleton] at hx
    rw [hx, List.mem_reverse]
    exact hacc
  | cons a t ih =>
    intro acc hacc x hx
    unfold splitOnSlashAux at hx
    by_cases ha : isSlash a
    · rw [if_pos ha] at hx
      rcases List.mem_cons.mp hx with h1 | h2
      · rw [h1, List.mem_reverse]; exact hacc
      · exact ih [] (by simp) x h2
    · rw [if_neg ha] at hx
      refine ih (a :: acc) ?_ x hx
      intro hmem
      rcases List.mem_cons.mp hmem with h1 | h2
      · rw [← h1] at ha; simp [isSlash] at ha
      · exact hacc h2

theorem splitOnSlashAux_cons (c : Char) (rest acc : Str) :
    splitOnSlashAux (c :: rest) acc =
      if isSlash c then acc.reverse :: splitOnSlashAux rest []
      else splitOnSlashAux rest (c :: acc) := rfl

theorem splitOnSlashAux_through {c : Str} :
    '/' ∉ c → ∀ (rest acc : Str),
      splitOnSlashAux (c ++ rest) acc = splitOnSlashAux rest (c.reverse ++ acc) := by
  induction c with
  | nil => intro _ rest acc; simp
  | cons a t ih =>
    intro h rest acc
    have ha : isSlash a = false := by
      simp only [isSlash, decide_eq_false_iff_not]
      intro hc
      exact h (by rw [← hc]; exact List.mem_cons_self _ _)
    have ht : '/' ∉ t := fun hm => h (List.mem_cons_of_mem a hm)
    rw [List.cons_append, splitOnSlashAux_cons, if_neg (by simp [ha]),
      ih ht rest (a :: acc)]
    congr 1
    simp

theorem splitOnSlash_join_good : ∀ {cs : List Str}, Good cs → cs ≠ [] →
    splitOnSlash (joinSlash cs) = cs := by
  intro cs
  induction cs with
  | nil => intro _ h; exact absurd rfl h
  | cons c rest ih =>
    intro hg _
    have hc : '/' ∉ c := (hg c (List.mem_cons_self _ _)).2.2.2
    cases rest with
    | nil =>
      show splitOnSlashAux (joinSlash [c]) [] = [c]
      have : joinSlash [c] = c ++ [] := by simp [joinSlash]
      rw [this, splitOnSlashAux_through hc [] []]
      simp [splitOnSlashAux]
    | cons d rest2 =>
      rw [joinSlash_cons_cons]
      show splitOnSlashAux (c ++ '/' :: joinSlash (d :: rest2)) [] = c :: d :: rest2
      rw [splitOnSlashAux_through hc ('/' :: joinSlash (d :: rest2)) []]
      unfold splitOnSlashAux
      rw [if_pos (by simp [isSlash])]
      have hrest : Good (d :: rest2) := fun x hx => hg x (List.mem_cons_of_mem c hx)
      have := ih hrest (by simp)
      simp only [splitOnSlash] at this
      rw [this]
      simp

theorem normSegs_good_all : ∀ {cs : List Str} (acc : List Str), Good cs →
    normSegs cs acc = some (acc.reverse ++ cs) := by
  intro cs
  induction cs with
  | nil => intro acc _; simp [normSegs]
  | cons c rest ih =>
    intro acc hg
    obtain ⟨h1, h2, h3, -⟩ := hg c (List.mem_cons_self _ _)
    unfold normSegs
    rw [if_neg h3, if_neg (by simp [h1, h2])]
    have hrest : Good rest := fun x hx => hg x (List.mem_cons_of_mem c hx)
    rw [ih (c :: acc) hrest]
    simp

theorem normSegs_output_good :
    ∀ (l acc out : List Str),
      (∀ x ∈ l, '/' ∉ x) → Good acc → normSegs l acc = some out → Good out := by
  intro l
  induction l with
  | nil =>
    intro acc out _ hacc h
    simp only [normSegs, Option.some.injEq] at h
    rw [← h]
    intro x hx
    exact hacc x (List.mem_reverse.mp hx)
  | cons c rest ih =>
    intro acc out hl hacc h
    unfold normSegs at h
    by_cases hdd : c = ['.', '.']
    · rw [if_pos hdd] at h
      cases acc with
      | nil => exact absurd h (by simp)
      | cons a t =>
        exact ih t out (fun x hx => hl x (List.mem_cons_of_mem c hx))
          (fun x hx => hacc x (List.mem_cons_of_mem a hx)) h
    · rw [if_neg hdd] at h
      by_cases hde : c = ['.'] ∨ c = []
      · rw [if_pos hde] at h
        exact ih acc out (fun x hx => hl x (List.mem_cons_of_mem c hx)) hacc h
      · rw [if_neg hde] at h
        refine ih (c :: acc) out (fun x hx => hl x (List.mem_cons_of_mem c hx)) ?_ h
        intro x hx
        rcases List.mem_cons.mp hx with h1 | h2
        · rw [h1]
          push_neg at hde
          exact ⟨hde.2, hde.1, hdd, hl c (List.mem_cons_self _ _)⟩
        · exact hacc x h2

theorem normpath_shape {p np : Str} (h : normpath p = .ok np) :
    ∃ cs, Good cs ∧ np = render (startsWithSlash p) cs := by
  unfold normpath at h
  cases hs : normSegs (splitOnSlash p) [] with
  | none => rw [hs] at h; exact absurd h (by simp)
  | some cs =>
    rw [hs] at h
    simp only [Except.ok.injEq] at h
    refine ⟨cs, ?_, h.symm⟩
    exact normSegs_output_good (splitOnSlash p) [] cs
      (splitOnSlashAux_no_slash_mem p [] (by simp)) (by intro x hx; simp at hx) hs

theorem normpath_render {cs : List Str} (hg : Good cs) (a : Bool) :
    normpath (render a cs) = .ok (render a cs) := by
  cases hcs : cs with
  | nil =>
    cases a <;> decide
  | cons c rest =>
    rw [← hcs]
    have hne : cs ≠ [] := by rw [hcs]; simp
    have hsplit := splitOnSlash_join_good hg hne
    cases a with
    | false =>
      unfold normpath
      have hrf : render false cs = joinSlash cs := by simp [render]
      rw [hrf, hsplit, normSegs_good_all [] hg]
      simp only [List.reverse_nil, List.nil_append]
      rw [startsWith_joinSlash_false hg]
      rw [hrf]
    | true =>
      unfold normpath
      have hrt : render true cs = '/' :: joinSlash cs := by simp [render]
      rw [hrt]
      have hsp : splitOnSlash ('/' :: joinSlash cs) = [] :: splitOnSlash (joinSlash cs) := by
        show splitOnSlashAux ('/' :: joinSlash cs) [] = [] :: splitOnSlashAux (joinSlash cs) []
        rw [splitOnSlashAux_cons, if_pos (by simp [isSlash])]
        rfl
      rw [hsp, hsplit]
      unfold normSegs
      rw [if_neg (by simp), if_pos (by simp)]
      rw [normSegs_good_all [] hg]
      simp only [List.reverse_nil, List.nil_append]
      have : startsWithSlash ('/' :: joinSlash cs) = true := by simp [startsWithSlash, isSlash]
      rw [this, ← hrt]

theorem abspath_render {cs : List Str} (hg : Good cs) (a : Bool) :
    abspath (render a cs) = render true cs := by
  cases a with
  | true => simp [abspath, render, startsWithSlash, isSlash]
  | false =>
    unfold abspath
    have hrf : render false cs = joinSlash cs := by simp [render]
    rw [hrf, startsWith_joinSlash_false hg]
    simp [render]

theorem validatepath_shape {p np : Str} (h : validatepath p = .ok np) :
    ∃ cs, Good cs ∧ np = render true cs ∧
      normpath p = .ok (render (startsWithSlash p) cs) := by
  unfold validatepath at h
  by_cases hz : (Char.ofNat 0) ∈ p
  · rw [if_pos hz] at h; exact absurd h (by simp)
  · rw [if_neg hz] at h
    cases hn : normpath p with
    | error e => rw [hn] at h; exact absurd h (by simp [Except.map])
    | ok np0 =>
      rw [hn] at h
      simp only [Except.map, Except.ok.injEq] at h
      obtain ⟨cs, hg, hshape⟩ := normpath_shape hn
      refine ⟨cs, hg, ?_, by rw [hshape]⟩
      rw [← h, hshape, abspath_render hg]

theorem lstrip_render {cs : List Str} (hg : Good cs) (a : Bool) :
    lstripSlash (render a cs) = joinSlash cs := by
  cases a with
  | false =>
    have : render false cs = joinSlash cs := by simp [render]
    rw [this, lstrip_joinSlash hg]
  | true =>
    have : render true cs = '/' :: joinSlash cs := by simp [render]
    rw [this, lstripSlash_cons_slash, lstrip_joinSlash hg]

theorem mkKey_render {ps cs : List Str} (hp : Good ps) (hc : Good cs) (a : Bool) :
    mkKey (joinSlash ps) (render a cs) = joinSlash (ps ++ cs) := by
  unfold mkKey
  rw [lstrip_render hc a]
  by_cases hps : ps = []
  · subst hps
    simp only [joinSlash, List.nil_append]
    rw [lstripSlash_cons_slash, lstrip_joinSlash hc, rstrip_joinSlash hc]
  · have hjne : joinSlash ps ≠ [] := joinSlash_ne_nil hp hps
    have hsw : startsWithSlash (joinSlash ps ++ '/' :: joinSlash cs) = false := by
      rw [startsWith_append_left _ hjne, startsWith_joinSlash_false hp]
    rw [lstrip_self_of_not_starts hsw]
    by_cases hcs : cs = []
    · subst hcs
      simp only [joinSlash, List.append_nil]
      rw [show joinSlash ps ++ ['/'] = joinSlash ps ++ ['/'] from rfl]
      rw [rstripSlash_append_slash, rstrip_joinSlash hp]
    · rw [← joinSlash_append hps hcs]
      exact rstrip_joinSlash (by
        intro x hx
        rcases List.mem_append.mp hx with h1 | h2
        · exact hp x h1
        · exact hc x h2)

theorem mkPrefix_shape {r P : Str} (h : mkPrefix r = .ok P) :
    ∃ ps, Good ps ∧ P = joinSlash ps := by
  unfold mkPrefix at h
  cases hn : normpath r with
  | error e => rw [hn] at h; exact absurd h (by simp [Except.map])
  | ok nr =>
    rw [hn] at h
    simp only [Except.map, Except.ok.injEq] at h
    obtain ⟨ps, hg, hshape⟩ := normpath_shape hn
    refine ⟨ps, hg, ?_⟩
    rw [← h, hshape]
    unfold relpath
    rw [lstrip_render hg, rstrip_joinSlash hg]

theorem keyToPath_mkKey {ps cs : List Str} (hp : Good ps) (hc : Good cs) (a : Bool) :
    keyToPath (joinSlash ps) (mkKey (joinSlash ps) (render a cs)) = abspath (render a cs) := by
  rw [mkKey_render hp hc a, abspath_render hc a]
  by_cases hps : ps = []
  · subst hps
    simp only [joinSlash, List.nil_append]
    unfold keyToPath
    rw [if_pos rfl]
    simp [render]
  · have hPne : joinSlash ps ≠ [] := joinSlash_ne_nil hp hps
    by_cases hcs : cs = []
    · subst hcs
      rw [List.append_nil]
      unfold keyToPath
      rw [if_neg hPne, if_pos rfl]
      simp [render, joinSlash]
    · rw [joinSlash_append hps hcs]
      unfold keyToPath
      rw [if_neg hPne]
      have hne2 : joinSlash ps ++ '/' :: joinSlash cs ≠ joinSlash ps := by
        intro he
        have := congrArg List.length he
        simp at this
      rw [if_neg hne2]
      have hdrop : (joinSlash ps ++ '/' :: joinSlash cs).drop ((joinSlash ps).length + 1)
          = joinSlash cs := by
        have hsplit2 : joinSlash ps ++ '/' :: joinSlash cs
            = (joinSlash ps ++ ['/']) ++ joinSlash cs := by simp
        rw [hsplit2]
        have hl : (joinSlash ps ++ ['/']).length = (joinSlash ps).length + 1 := by simp
        rw [← hl]
        exact List.drop_left _ _
      rw [hdrop]
      simp [render]

/-- C7: for every valid path (one whose normalization succeeds) under a
configured root prefix, the path-to-key translation is reversible —
composing it with the spec-modelled inverse recovers the normalized
absolute path; consequently distinct normalized paths map to distinct
keys, and the root path maps to the prefix itself, never to the prefix
followed by a trailing delimiter. -/
theorem claim_C7_path_key_roundtrip :
    ∀ (r P p np : Str),
      mkPrefix r = .ok P → normpath p = .ok np →
      ((pathToKey P p = .ok (mkKey P np) ∧
        keyToPath P (mkKey P np) = abspath np) ∧
       (∀ q nq, normpath q = .ok nq → mkKey P np = mkKey P nq →
          abspath np = abspath nq) ∧
       (pathToKey P ['/'] = .ok P ∧ P ≠ P ++ ['/'])) := by
  intro r P p np hr hp
  obtain ⟨ps, hgp, hP⟩ := mkPrefix_shape hr
  have hroundtrip : ∀ (q nq : Str), normpath q = .ok nq →
      keyToPath P (mkKey P nq) = abspath nq := by
    intro q nq hq
    obtain ⟨cs, hgc, hshape⟩ := normpath_shape hq
    rw [hshape, hP]
    exact keyToPath_mkKey hgp hgc _
  refine ⟨⟨?_, hroundtrip p np hp⟩, ?_, ?_, ?_⟩
  · unfold pathToKey
    rw [hp]
    rfl
  · intro q nq hq heq
    rw [← hroundtrip p np hp, ← hroundtrip q nq hq, heq]
  · unfold pathToKey
    have hnr : normpath ['/'] = .ok ['/'] := by decide
    rw [hnr]
    have : mkKey P ['/'] = P := by
      have h1 : (['/'] : Str) = render true [] := by simp [render, joinSlash]
      rw [hP, h1, mkKey_render hgp (by intro x hx; simp at hx) true]
      simp
    simp [Except.map, this]
  · intro he
    have := congrArg List.length he
    simp at this

/-- C8: the path-to-key translation rejects `..` — and every path whose
normalization pops past the root — with `IllegalBackReference`, for an
empty root prefix and for any non-empty root prefix alike; it never
produces a key for such a path. -/
theorem claim_C8_back_reference_rejection :
    (∀ pfx : Str, pathToKey pfx ['.', '.'] = .error .illegalBackReference) ∧
    (∀ (pfx p : Str), normpath p = .error .illegalBackReference →
      pathToKey pfx p = .error .illegalBackReference) := by
  constructor
  · intro pfx
    unfold pathToKey
    rw [show normpath ['.', '.'] = .error .illegalBackReference from by decide]
    rfl
  · intro pfx p h
    unfold pathToKey
    rw [h]
    rfl

theorem claim_C8_witness :
    pathToKey [] ['.', '.'] = .error .illegalBackReference ∧
    normpath "/a/../..".data = .error .illegalBackReference ∧
    pathToKey "root".data "/a/../..".data = .error .illegalBackReference := by
  refine ⟨claim_C8_back_reference_rejection.1 [], by decide, ?_⟩
  exact claim_C8_back_reference_rejection.2 "root".data "/a/../..".data (by decide)

theorem claim_C7_witness :
    mkPrefix "root".data = .ok "root".data ∧
    normpath "/a/b".data = .ok "/a/b".data ∧
    pathToKey "root".data "/a/b".data = .ok "root/a/b".data ∧
    keyToPath "root".data "root/a/b".data = "/a/b".data ∧
    pathToKey "root".data "/".data = .ok "root".data := by
  have h := claim_C7_path_key_roundtrip "root".data "root".data "/a/b".data "/a/b".data
    (by decide) (by decide)
  refine ⟨by decide, by decide, ?_, ?_, ?_⟩
  · have h1 := h.1.1
    rw [show mkKey "root".data "/a/b".data = "root/a/b".data from by decide] at h1
    exact h1
  · have h2 := h.1.2
    rw [show mkKey "root".data "/a/b".data = "root/a/b".data from by decide] at h2
    rw [show abspath "/a/b".data = "/a/b".data from by decide] at h2
    exact h2
  · exact h.2.2.1

theorem getBlob_putBlob_self : ∀ (bkt : Bucket) (k : Str) (c : Bytes),
    getBlob (putBlob bkt k c) k = some ⟨k, c⟩ := by
  intro bkt k c
  induction bkt with
  | nil => simp [putBlob, getBlob, List.find?]
  | cons b rest ih =>
    by_cases h : b.name = k
    · simp [putBlob, h, getBlob, List.find?]
    · rw [putBlob, if_neg h]
      unfold getBlob at ih ⊢
      rw [List.find?_cons_of_neg _ (by simp [h])]
      exact ih

theorem getBlob_putBlob_ne : ∀ (bkt : Bucket) {k k2 : Str} (c : Bytes), k ≠ k2 →
    getBlob (putBlob bkt k2 c) k = getBlob bkt k := by
  intro bkt k k2 c hne
  induction bkt with
  | nil =>
    show getBlob [⟨k2, c⟩] k = none
    unfold getBlob
    rw [List.find?_cons_of_neg _ (by simp; intro he; exact hne he.symm)]
    rfl
  | cons b rest ih =>
    by_cases h : b.name = k2
    · rw [putBlob, if_pos h]
      unfold getBlob
      rw [List.find?_cons_of_neg _ (by simp; intro he; exact hne he.symm),
        List.find?_cons_of_neg _ (by simp [h]; intro he; exact hne he.symm)]
    · rw [putBlob, if_neg h]
      unfold getBlob at ih ⊢
      by_cases hbk : b.name = k
      · rw [List.find?_cons_of_pos _ (by simp [hbk]), List.find?_cons_of_pos _ (by simp [hbk])]
      · rw [List.find?_cons_of_neg _ (by simp [hbk]), List.find?_cons_of_neg _ (by simp [hbk])]
        exact ih

theorem getBlob_isSome_putBlob (bkt : Bucket) (k k2 : Str) (c : Bytes)
    (h : (getBlob bkt k).isSome = true) :
    (getBlob (putBlob bkt k2 c) k).isSome = true := by
  by_cases he : k = k2
  · subst he
    rw [getBlob_putBlob_self]
    rfl
  · rw [getBlob_putBlob_ne bkt c he]
    exact h

theorem getBlob_mem_isSome {bkt : Bucket} {k : Str} (b : Blob)
    (hmem : b ∈ bkt) (hname : b.name = k) : (getBlob bkt k).isSome = true := by
  induction bkt with
  | nil => simp at hmem
  | cons b2 rest ih =>
    by_cases h : b2.name = k
    · unfold getBlob
      rw [List.find?_cons_of_pos _ (by simp [h])]
      rfl
    · unfold getBlob at ih ⊢
      rw [List.find?_cons_of_neg _ (by simp [h])]
      rcases List.mem_cons.mp hmem with h1 | h2
      · rw [h1] at hname; exact absurd hname h
      · exact ih h2

theorem foldPut_preserves_get {l : List Str} :
    ∀ {bkt : Bucket} {k : Str}, (∀ d ∈ l, forcedir d ≠ k) →
      getBlob (l.foldl (fun acc d => putBlob acc (forcedir d) []) bkt) k
        = getBlob bkt k := by
  induction l with
  | nil => intro bkt k _; rfl
  | cons d rest ih =>
    intro bkt k h
    rw [List.foldl_cons]
    rw [ih (fun x hx => h x (List.mem_cons_of_mem d hx))]
    exact getBlob_putBlob_ne bkt [] (fun he => h d (List.mem_cons_self _ _) he.symm)

theorem foldPut_isSome_mono {l : List Str} :
    ∀ {bkt : Bucket} {k : Str}, (getBlob bkt k).isSome = true →
      (getBlob (l.foldl (fun acc d => putBlob acc (forcedir d) []) bkt) k).isSome
        = true := by
  induction l with
  | nil => intro bkt k h; exact h
  | cons d rest ih =>
    intro bkt k h
    rw [List.foldl_cons]
    exact ih (getBlob_isSome_putBlob bkt k (forcedir d) [] h)

theorem foldPut_isSome_of_mem {l : List Str} :
    ∀ {bkt : Bucket} {d : Str}, d ∈ l →
      (getBlob (l.foldl (fun acc d => putBlob acc (forcedir d) []) bkt)
        (forcedir d)).isSome = true := by
  induction l with
  | nil => intro bkt d h; simp at h
  | cons d0 rest ih =>
    intro bkt d h
    rw [List.foldl_cons]
    rcases List.mem_cons.mp h with h1 | h2
    · subst h1
      exact foldPut_isSome_mono (by rw [getBlob_putBlob_self]; rfl)
    · exact ih h2

/-- C10: the root path always exists and is a directory: for every
bucket state (the bucket is universally quantified, so no marker object
is consulted), `getinfo("/")` — with or without the parent check —
returns a directory entry with an empty name, and `exists("/")` returns
true. -/
theorem claim_C10_root_always_directory :
    ∀ (pfx : Str) (bkt : Bucket) (cp : Bool),
      getinfoModel pfx bkt ['/'] cp = .ok (dirInfo []) ∧
      (dirInfo []).is_dir = true ∧
      existsModel pfx bkt ['/'] = .ok true := by
  intro pfx bkt cp
  refine ⟨?_, rfl, rfl⟩
  cases cp with
  | false => rfl
  | true => rfl

/-- C5: the self-healing directory check of the gcsfs variant returns
true when a marker blob sits at the dir-key; otherwise, when at least
one object shows up under the dir-key prefix in the listed page, it
creates a zero-byte marker at the dir-key as a side effect and returns
true; otherwise it returns false and leaves the bucket unchanged. -/
theorem claim_C5_check_and_fix_dir :
    ∀ (pfx : Str) (bkt : Bucket) (p dk : Str),
      pathToDirKeyG pfx p = .ok dk →
      (((getBlob bkt dk).isSome = true →
          checkAndFixDir pfx bkt p = .ok (true, bkt)) ∧
       (getBlob bkt dk = none → listBlobsP bkt dk ≠ [] →
          checkAndFixDir pfx bkt p = .ok (true, putBlob bkt dk []) ∧
          getBlob (putBlob bkt dk []) dk = some ⟨dk, []⟩) ∧
       (getBlob bkt dk = none → listBlobsP bkt dk = [] →
          checkAndFixDir pfx bkt p = .ok (false, bkt))) := by
  intro pfx bkt p dk h
  refine ⟨?_, ?_, ?_⟩
  · intro hsome
    unfold checkAndFixDir
    rw [h]
    simp only [hsome, if_true]
  · intro hnone hne
    unfold checkAndFixDir
    rw [h]
    simp only [hnone, Option.isSome_none, Bool.false_eq_true, if_false]
    rw [if_pos (by
      have := List.length_pos.mpr hne
      omega)]
    exact ⟨rfl, getBlob_putBlob_self bkt dk []⟩
  · intro hnone hemp
    unfold checkAndFixDir
    rw [h]
    simp only [hnone, Option.isSome_none, Bool.false_eq_true, if_false]
    rw [if_neg (by rw [hemp]; simp)]

theorem claim_C5_witness :
    pathToDirKeyG [] "/foo".data = .ok "foo/".data ∧
    getBlob [⟨"foo/bar".data, [1]⟩] "foo/".data = none ∧
    listBlobsP [⟨"foo/bar".data, [1]⟩] "foo/".data ≠ [] ∧
    checkAndFixDir [] [⟨"foo/bar".data, [1]⟩] "/foo".data
      = .ok (true, [⟨"foo/bar".data, [1]⟩, ⟨"foo/".data, []⟩]) ∧
    checkAndFixDir [] [⟨"other".data, [1]⟩] "/foo".data
      = .ok (false, [⟨"other".data, [1]⟩]) := by
  have h := claim_C5_check_and_fix_dir [] [⟨"foo/bar".data, [1]⟩] "/foo".data "foo/".data
    (by decide)
  have h2 := (h.2.1 (by decide) (by decide)).1
  refine ⟨by decide, by decide, by decide, ?_, ?_⟩
  · rw [h2]
    decide
  · have h3 := claim_C5_check_and_fix_dir [] [⟨"other".data, [1]⟩] "/foo".data "foo/".data
      (by decide)
    exact h3.2.2 (by decide) (by decide)

theorem getinfoModel_parent_absent {pfx : Str} {bkt : Bucket} {p np pk : Str}
    (hv : validatepath p = .ok np)
    (hpk : pathToDirKey pfx (dirname np) = .ok pk)
    (hd : dirname np ≠ ['/']) (hnone : getBlob bkt pk = none) :
    getinfoModel pfx bkt p true = .error .resourceNotFound := by
  unfold getinfoModel
  cases hv2 : validatepath p with
  | error e => rw [hv2] at hv; exact absurd hv (by simp)
  | ok np2 =>
    rw [hv2] at hv
    injection hv with hnp2
    subst hnp2
    simp only [if_true]
    cases hpk2 : pathToDirKey pfx (dirname np2) with
    | error e => rw [hpk2] at hpk; exact absurd hpk (by simp)
    | ok pk2 =>
      rw [hpk2] at hpk
      injection hpk with hpk3
      subst hpk3
      have hcond : dirname np2 ≠ ['/'] ∧ getBlob bkt pk2 = none := ⟨hd, hnone⟩
      simp only []
      rw [if_pos hcond]

theorem getinfoModel_parent_ok {pfx : Str} {bkt : Bucket} {p np pk : Str}
    (hv : validatepath p = .ok np)
    (hpk : pathToDirKey pfx (dirname np) = .ok pk)
    (hok : dirname np = ['/'] ∨ (getBlob bkt pk).isSome = true) :
    getinfoModel pfx bkt p true = getinfoModel pfx bkt p false := by
  unfold getinfoModel
  cases hv2 : validatepath p with
  | error e => rfl
  | ok np2 =>
    rw [hv2] at hv
    injection hv with hnp2
    subst hnp2
    simp only [if_true, Bool.false_eq_true, if_false]
    cases hpk2 : pathToDirKey pfx (dirname np2) with
    | error e => rw [hpk2] at hpk; exact absurd hpk (by simp)
    | ok pk2 =>
      rw [hpk2] at hpk
      injection hpk with hpk3
      subst hpk3
      have hcond : ¬(dirname np2 ≠ ['/'] ∧ getBlob bkt pk2 = none) := by
        intro hand
        rcases hok with h1 | h2
        · exact hand.1 h1
        · rw [hand.2] at h2; exact absurd h2 (by simp)
      simp only []
      rw [if_neg hcond]

theorem getinfoModel_no_parent_eval {pfx : Str} {bkt : Bucket} {p np key : Str}
    (hv : validatepath p = .ok np) (hnp : np ≠ ['/'])
    (hk : pathToKey pfx np = .ok key) :
    getinfoModel pfx bkt p false =
      (match getBlob bkt key with
       | some blb => .ok (infoFromBlob blb)
       | none =>
         match getBlob bkt (key ++ ['/']) with
         | some _ => .ok (dirInfo p)
         | none => .error .resourceNotFound) := by
  unfold getinfoModel
  cases hv2 : validatepath p with
  | error e => rw [hv2] at hv; exact absurd hv (by simp)
  | ok np2 =>
    rw [hv2] at hv
    injection hv with hnp2
    subst hnp2
    simp only [Bool.false_eq_true, if_false]
    rw [if_neg hnp]
    cases hk2 : pathToKey pfx np2 with
    | error e => rw [hk2] at hk; exact absurd hk (by simp)
    | ok key2 =>
      rw [hk2] at hk
      injection hk with hk3
      subst hk3
      rfl

/-- C3: with the parent check enabled, `getinfo` on a valid non-root
path resolves in this fixed order: a non-root parent without a marker
raises `ResourceNotFound`; otherwise a blob at the exact key yields a
file entry (winning over any dir-key blob, which is not consulted);
otherwise a blob at the dir-key yields a directory entry; otherwise
`ResourceNotFound`. -/
theorem claim_C3_getinfo_resolution_order :
    ∀ (pfx : Str) (bkt : Bucket) (p np pk key : Str),
      validatepath p = .ok np → np ≠ ['/'] →
      pathToDirKey pfx (dirname np) = .ok pk →
      pathToKey pfx np = .ok key →
      ((dirname np ≠ ['/'] → getBlob bkt pk = none →
          getinfoModel pfx bkt p true = .error .resourceNotFound) ∧
       (dirname np = ['/'] ∨ (getBlob bkt pk).isSome = true →
         ((∀ blb, getBlob bkt key = some blb →
             getinfoModel pfx bkt p true = .ok (infoFromBlob blb)) ∧
          (∀ mblb, getBlob bkt key = none → getBlob bkt (key ++ ['/']) = some mblb →
             getinfoModel pfx bkt p true = .ok (dirInfo p)) ∧
          (getBlob bkt key = none → getBlob bkt (key ++ ['/']) = none →
             getinfoModel pfx bkt p true = .error .resourceNotFound)))) := by
  intro pfx bkt p np pk key hv hnp hpk hk
  constructor
  · intro hd hnone
    exact getinfoModel_parent_absent hv hpk hd hnone
  · intro hok
    have heval : getinfoModel pfx bkt p true =
        (match getBlob bkt key with
         | some blb => .ok (infoFromBlob blb)
         | none =>
           match getBlob bkt (key ++ ['/']) with
           | some _ => .ok (dirInfo p)
           | none => .error .resourceNotFound) := by
      rw [getinfoModel_parent_ok hv hpk hok]
      exact getinfoModel_no_parent_eval hv hnp hk
    refine ⟨?_, ?_, ?_⟩
    · intro blb hblb
      rw [heval, hblb]
    · intro mblb hnone hm
      rw [heval, hnone, hm]
    · intro hnone hnone2
      rw [heval, hnone, hnone2]

theorem claim_C3_witness :
    validatepath "/d/x".data = .ok "/d/x".data ∧
    pathToDirKey [] (dirname "/d/x".data) = .ok "d/".data ∧
    pathToKey [] "/d/x".data = .ok "d/x".data ∧
    getinfoModel [] [⟨"d/".data, []⟩, ⟨"d/x".data, [1]⟩, ⟨"d/x/".data, []⟩]
      "/d/x".data true = .ok (infoFromBlob ⟨"d/x".data, [1]⟩) ∧
    getinfoModel [] [] "/d/x".data true = .error .resourceNotFound := by
  have h := claim_C3_getinfo_resolution_order []
    [⟨"d/".data, []⟩, ⟨"d/x".data, [1]⟩, ⟨"d/x/".data, []⟩]
    "/d/x".data "/d/x".data "d/".data "d/x".data
    (by decide) (by decide) (by decide) (by decide)
  have h2 := claim_C3_getinfo_resolution_order [] []
    "/d/x".data "/d/x".data "d/".data "d/x".data
    (by decide) (by decide) (by decide) (by decide)
  refine ⟨by decide, by decide, by decide, ?_, ?_⟩
  · exact (h.2 (by decide)).1 ⟨"d/x".data, [1]⟩ (by decide)
  · exact h2.1 (by decide) (by decide)

/-- C9: when a blob sits at the exact key of a valid non-root path whose
(non-root) parent directory carries no marker, `exists` answers true
while `getinfo` with the default parent check raises `ResourceNotFound`
on the same path against the same bucket. -/
theorem claim_C9_exists_getinfo_divergence :
    ∀ (pfx : Str) (bkt : Bucket) (p np pk keyR : Str) (blb : Blob),
      validatepath p = .ok np → np ≠ ['/'] → dirname np ≠ ['/'] →
      pathToKey pfx p = .ok keyR →
      pathToDirKey pfx (dirname np) = .ok pk →
      getBlob bkt keyR = some blb →
      getBlob bkt pk = none →
      existsModel pfx bkt p = .ok true ∧
      getinfoModel pfx bkt p true = .error .resourceNotFound := by
  intro pfx bkt p np pk keyR blb hv hnp hd hkR hpk hblob hnone
  constructor
  · unfold existsModel
    cases hv2 : validatepath p with
    | error e => rw [hv2] at hv; exact absurd hv (by simp)
    | ok np2 =>
      rw [hv2] at hv
      injection hv with hnp2
      subst hnp2
      simp only []
      rw [if_neg hnp]
      cases hk2 : pathToKey pfx p with
      | error e => rw [hk2] at hkR; exact absurd hkR (by simp)
      | ok keyR2 =>
        rw [hk2] at hkR
        injection hkR with hk3
        subst hk3
        simp only [hblob]
        rfl
  · exact getinfoModel_parent_absent hv hpk hd hnone

theorem claim_C9_witness :
    validatepath "/d/x".data = .ok "/d/x".data ∧
    pathToKey [] "/d/x".data = .ok "d/x".data ∧
    pathToDirKey [] (dirname "/d/x".data) = .ok "d/".data ∧
    getBlob [⟨"d/x".data, [1]⟩] "d/x".data = some ⟨"d/x".data, [1]⟩ ∧
    getBlob [⟨"d/x".data, [1]⟩] "d/".data = none ∧
    existsModel [] [⟨"d/x".data, [1]⟩] "/d/x".data = .ok true ∧
    getinfoModel [] [⟨"d/x".data, [1]⟩] "/d/x".data true
      = .error .resourceNotFound := by
  have h := claim_C9_exists_getinfo_divergence [] [⟨"d/x".data, [1]⟩]
    "/d/x".data "/d/x".data "d/".data "d/x".data ⟨"d/x".data, [1]⟩
    (by decide) (by decide) (by decide) (by decide) (by decide) (by decide) (by decide)
  exact ⟨by decide, by decide, by decide, by decide, by decide, h.1, h.2⟩

/-- C1 counterexample: a write-mode handle whose upload raises.  The
propagated result is the upload error — but the buffer is NOT released
(`closed` stays false), because `gcs_file.raw.close()` in `on_close`
runs after the upload with no try/finally around it.  This refutes the
claim that the buffer is closed unconditionally on every exit path. -/
theorem claim_C1_counterexample :
    (onCloseModel true modeWb "k".data [] ⟨[1, 2, 3], 3, false⟩).1
      = .error .uploadFailed ∧
    (onCloseModel true modeWb "k".data [] ⟨[1, 2, 3], 3, false⟩).2.closed
      = false := by
  decide

/-- C1 as amended: closing a handle opened with create/write/append
intent seeks the buffer to the start and uploads it in full as the new
object content; when the upload succeeds the buffer is then released;
when the upload raises, the error propagates to the caller but the
buffer is left unreleased (only the cursor reset has happened). -/
theorem claim_C1_close_semantics :
    ∀ (uploadFails : Bool) (m : Mode) (key : Str) (bkt : Bucket) (f : GCSFileSt),
      (m.create || m.writing) = true →
      ((uploadFails = false →
         onCloseModel uploadFails m key bkt f
           = (.ok (putBlob bkt key f.buf), ⟨f.buf, f.buf.length, true⟩)) ∧
       (uploadFails = true →
         onCloseModel uploadFails m key bkt f
           = (.error .uploadFailed, ⟨f.buf, 0, f.closed⟩))) := by
  intro uploadFails m key bkt f hm
  constructor
  · intro hfail
    subst hfail
    unfold onCloseModel
    rw [if_pos hm]
    simp [seekSet]
  · intro hfail
    subst hfail
    unfold onCloseModel
    rw [if_pos hm]
    simp [seekSet]

theorem claim_C1_close_semantics_witness :
    (modeWb.create || modeWb.writing) = true ∧
    onCloseModel false modeWb "k".data [] ⟨[1, 2, 3], 3, false⟩
      = (.ok [⟨"k".data, [1, 2, 3]⟩], ⟨[1, 2, 3], 3, true⟩) ∧
    onCloseModel true modeWb "k".data [] ⟨[1, 2, 3], 3, false⟩
      = (.error .uploadFailed, ⟨[1, 2, 3], 0, false⟩) := by
  have h := claim_C1_close_semantics false modeWb "k".data [] ⟨[1, 2, 3], 3, false⟩
    (by decide)
  have h2 := claim_C1_close_semantics true modeWb "k".data [] ⟨[1, 2, 3], 3, false⟩
    (by decide)
  refine ⟨by decide, ?_, ?_⟩
  · rw [h.1 rfl]
    decide
  · rw [h2.2 rfl]

theorem openbinModel_wb_eval (pfx : Str) (strict : Bool) (bkt : Bucket) (x : Str) :
    openbinModel pfx strict bkt x modeWb =
      (match validatepath x with
       | .error e => .error e
       | .ok np =>
         match pathToKey pfx np with
         | .error e => .error e
         | .ok _ =>
           match ((if dirname np ≠ ['/'] then
                    match pathToDirKey pfx (dirname np) with
                    | .error e => .error e
                    | .ok dk =>
                      if getBlob bkt dk = none then .error .resourceNotFound
                      else .ok ()
                  else .ok ()) : Except FsError Unit) with
           | .error e => .error e
           | .ok _ =>
             match ((match getinfoModel pfx bkt x true with
                    | .error .resourceNotFound => .ok ()
                    | .error e => .error e
                    | .ok info =>
                      if info.is_dir then .error .fileExpected else .ok ()) :
                    Except FsError Unit) with
             | .error e => .error e
             | .ok _ => .ok emptyFile) := rfl

theorem openbinModel_rb_eval (pfx : Str) (strict : Bool) (bkt : Bucket) (x : Str) :
    openbinModel pfx strict bkt x modeRb =
      (match validatepath x with
       | .error e => .error e
       | .ok np =>
         match pathToKey pfx np with
         | .error e => .error e
         | .ok key =>
           match ((if strict then
                    match getinfoModel pfx bkt x true with
                    | .error e => .error e
                    | .ok info =>
                      if info.is_dir then .error .fileExpected else .ok ()
                  else .ok ()) : Except FsError Unit) with
           | .error e => .error e
           | .ok _ =>
             match getBlob bkt key with
             | none => .error .resourceNotFound
             | some blb => .ok (seekSet (writeAt emptyFile blb.content) 0)) := rfl

theorem getinfoModel_root {pfx : Str} {bkt : Bucket} {x : Str}
    (hv : validatepath x = .ok ['/']) (cp : Bool) :
    getinfoModel pfx bkt x cp = .ok (dirInfo []) := by
  unfold getinfoModel
  cases hv2 : validatepath x with
  | error e => rw [hv2] at hv; exact absurd hv (by simp)
  | ok np2 =>
    rw [hv2] at hv
    injection hv with hnp2
    subst hnp2
    cases cp with
    | false => rfl
    | true =>
      simp only [if_true]
      have hdk : pathToDirKey pfx (dirname ['/']) = .ok (mkKey pfx ['/'] ++ ['/']) := by
        rw [show dirname ['/'] = ['/'] from by decide]
        unfold pathToDirKey pathToKey
        rw [show normpath ['/'] = .ok ['/'] from by decide]
        rfl
      rw [hdk]
      simp only []
      rw [if_neg (by
        intro hand
        exact hand.1 (by decide))]

theorem pathToKey_not_ends {pfx q key : Str} (h : pathToKey pfx q = .ok key) :
    endsWithSlash key = false := by
  unfold pathToKey at h
  cases hn : normpath q with
  | error e => rw [hn] at h; exact absurd h (by simp [Except.map])
  | ok nq =>
    rw [hn] at h
    simp only [Except.map, Except.ok.injEq] at h
    rw [← h]
    unfold mkKey
    exact endsWith_rstripSlash_false _

theorem pathToDirKey_ends {pfx q pk : Str} (h : pathToDirKey pfx q = .ok pk) :
    endsWithSlash pk = true := by
  unfold pathToDirKey at h
  cases hn : pathToKey pfx q with
  | error e => rw [hn] at h; exact absurd h (by simp [Except.map])
  | ok k =>
    rw [hn] at h
    simp only [Except.map, Except.ok.injEq] at h
    rw [← h]
    unfold endsWithSlash
    rw [List.getLast?_concat]
    decide

theorem key_ne_dirKey {pfx q q2 key pk : Str} (hk : pathToKey pfx q = .ok key)
    (hpk : pathToDirKey pfx q2 = .ok pk) : key ≠ pk := by
  intro he
  have h1 := pathToKey_not_ends hk
  have h2 := pathToDirKey_ends hpk
  rw [he, h2] at h1
  exact absurd h1 (by simp)

theorem openbinWb_inv {pfx : Str} {strict : Bool} {bkt : Bucket} {x np key : Str}
    {f0 : GCSFileSt}
    (hv : validatepath x = .ok np) (hk : pathToKey pfx np = .ok key)
    (h : openbinModel pfx strict bkt x modeWb = .ok f0) :
    f0 = emptyFile ∧ np ≠ ['/'] ∧
      (dirname np = ['/'] ∨
        ∃ pk, pathToDirKey pfx (dirname np) = .ok pk ∧
          (getBlob bkt pk).isSome = true) := by
  rw [openbinModel_wb_eval, hv] at h
  simp only [] at h
  rw [hk] at h
  simp only [] at h
  have hnp : np ≠ ['/'] := by
    intro hroot
    subst hroot
    rw [if_neg (by intro hd; exact hd (by decide))] at h
    rw [getinfoModel_root hv true] at h
    simp only [] at h
    rw [if_pos (by rfl)] at h
    exact absurd h (by simp)
  by_cases hd : dirname np = ['/']
  · rw [if_neg (not_not_intro hd)] at h
    simp only [] at h
    refine ⟨?_, hnp, Or.inl hd⟩
    cases hgi : getinfoModel pfx bkt x true with
    | error e =>
      rw [hgi] at h
      cases e <;> simp only [] at h <;> first
        | (exact (Except.ok.inj h).symm)
        | (exact absurd h (by simp))
    | ok info =>
      rw [hgi] at h
      simp only [] at h
      cases hdir : info.is_dir with
      | true => rw [hdir] at h; simp only [if_true] at h; exact absurd h (by simp)
      | false =>
        rw [hdir] at h
        simp only [Bool.false_eq_true, if_false] at h
        exact (Except.ok.inj h).symm
  · rw [if_pos hd] at h
    cases hdk : pathToDirKey pfx (dirname np) with
    | error e => rw [hdk] at h; simp at h
    | ok pk =>
      rw [hdk] at h
      simp only [] at h
      cases hgb : getBlob bkt pk with
      | none => rw [hgb] at h; rw [if_pos rfl] at h; simp at h
      | some blob =>
        rw [hgb] at h
        rw [if_neg (by simp)] at h
        simp only [] at h
        refine ⟨?_, hnp, Or.inr ⟨pk, rfl, by rw [hgb]; rfl⟩⟩
        cases hgi : getinfoModel pfx bkt x true with
        | error e =>
          rw [hgi] at h
          cases e <;> simp only [] at h <;> first
            | (exact (Except.ok.inj h).symm)
            | (exact absurd h (by simp))
        | ok info =>
          rw [hgi] at h
          simp only [] at h
          cases hdir : info.is_dir with
          | true => rw [hdir] at h; simp only [if_true] at h; exact absurd h (by simp)
          | false =>
            rw [hdir] at h
            simp only [Bool.false_eq_true, if_false] at h
            exact (Except.ok.inj h).symm

theorem pathToDirKey_root (pfx : Str) :
    pathToDirKey pfx ['/'] = .ok (mkKey pfx ['/'] ++ ['/']) := by
  unfold pathToDirKey pathToKey
  rw [show normpath ['/'] = .ok ['/'] from by decide]
  rfl

/-- C2: the write/read round trip.  Writing bytes `b` to a path through
a handle opened with `openbin(x, "wb")` and closing it (which uploads
the buffer), then opening `x` with `openbin(x, "rb")` in strict mode and
reading in full, returns exactly `b`.  The hypothesis is that the write
pipeline succeeded, which in particular holds when `x` is a valid
non-directory path whose parent directory exists. -/
theorem claim_C2_write_read_round_trip :
    ∀ (pfx : Str) (strict : Bool) (bkt : Bucket) (x : Str) (b : Bytes)
      (bkt2 : Bucket),
      writeFileModel pfx strict bkt x b = .ok bkt2 →
      readFileModel pfx true bkt2 x = .ok b := by
  intro pfx strict bkt x b bkt2 h
  unfold writeFileModel at h
  cases hv : validatepath x with
  | error e => rw [hv] at h; simp at h
  | ok np =>
    rw [hv] at h
    simp only [] at h
    cases hk : pathToKey pfx np with
    | error e => rw [hk] at h; simp at h
    | ok key =>
      rw [hk] at h
      simp only [] at h
      cases hob : openbinModel pfx strict bkt x modeWb with
      | error e => rw [hob] at h; simp at h
      | ok f0 =>
        rw [hob] at h
        simp only [] at h
        obtain ⟨hf0, hnp, hpok⟩ := openbinWb_inv hv hk hob
        subst hf0
        rw [show gcsWrite modeWb emptyFile b = .ok (writeAt emptyFile b) from rfl] at h
        simp only [] at h
        have hWb : writeAt emptyFile b = ⟨b, b.length, false⟩ := by
          simp [writeAt, emptyFile]
        have hclose : (onCloseModel false modeWb key bkt (writeAt emptyFile b)).1
            = .ok (putBlob bkt key b) := by
          rw [hWb]
          unfold onCloseModel
          rw [if_pos (by rfl)]
          simp [seekSet]
        rw [hclose] at h
        simp only [Except.ok.injEq] at h
        subst h
        unfold readFileModel
        rw [openbinModel_rb_eval, hv]
        simp only []
        rw [hk]
        simp only []
        have hgi : getinfoModel pfx (putBlob bkt key b) x true
            = .ok (infoFromBlob ⟨key, b⟩) := by
          have hstep : getinfoModel pfx (putBlob bkt key b) x true
              = getinfoModel pfx (putBlob bkt key b) x false := by
            rcases hpok with h1 | ⟨pk, hdk, hsome⟩
            · exact getinfoModel_parent_ok hv
                (by rw [h1]; exact pathToDirKey_root pfx) (Or.inl h1)
            · exact getinfoModel_parent_ok hv hdk
                (Or.inr (getBlob_isSome_putBlob bkt pk key b hsome))
          rw [hstep, getinfoModel_no_parent_eval hv hnp hk, getBlob_putBlob_self]
        rw [hgi]
        simp only []
        rw [show (infoFromBlob ⟨key, b⟩).is_dir = false from rfl]
        simp only [Bool.false_eq_true, if_false]
        rw [getBlob_putBlob_self]
        simp only []
        simp [gcsRead, modeRb, Mode.reading, seekSet, writeAt, emptyFile]

theorem claim_C2_witness :
    writeFileModel [] true [] "/test".data [49, 50, 51]
      = .ok [⟨"test".data, [49, 50, 51]⟩] ∧
    readFileModel [] true [⟨"test".data, [49, 50, 51]⟩] "/test".data
      = .ok [49, 50, 51] := by
  refine ⟨by decide, ?_⟩
  exact claim_C2_write_read_round_trip [] true [] "/test".data [49, 50, 51]
    [⟨"test".data, [49, 50, 51]⟩] (by decide)

theorem getBlob_none_of_not_mem {bkt : Bucket} {k : Str}
    (h : k ∉ bkt.map Blob.name) : getBlob bkt k = none := by
  induction bkt with
  | nil => rfl
  | cons b rest ih =>
    unfold getBlob
    rw [List.find?_cons_of_neg _ (by
      simp only [decide_eq_true_eq]
      intro he
      exact h (by rw [List.map_cons]; exact List.mem_cons.mpr (Or.inl he.symm)))]
    exact ih (fun hm => h (by rw [List.map_cons]; exact List.mem_cons.mpr (Or.inr hm)))

theorem getBlob_eraseBlob_self {bkt : Bucket} {k : Str}
    (h : (bkt.map Blob.name).Nodup) : getBlob (eraseBlob bkt k) k = none := by
  induction bkt with
  | nil => rfl
  | cons b rest ih =>
    rw [List.map_cons, List.nodup_cons] at h
    unfold eraseBlob
    by_cases hb : b.name = k
    · rw [if_pos hb]
      exact getBlob_none_of_not_mem (by rw [← hb]; exact h.1)
    · rw [if_neg hb]
      unfold getBlob
      rw [List.find?_cons_of_neg _ (by simp [hb])]
      exact ih h.2

/-- C6 counterexample: on an empty bucket, `removedir("/foo")` raises
`ResourceNotFound` (propagated from `getinfo`), not `DirectoryExpected`
— yet `/foo` is a path that does not resolve to a directory, so the
claim predicts `DirectoryExpected` there. -/
theorem claim_C6_counterexample :
    removedirModel [] [] "/foo".data = .error .resourceNotFound ∧
    FsError.resourceNotFound ≠ FsError.directoryExpected := by
  decide

/-- C6 as amended: `removedir(p)` raises `RemoveRootError` whenever `p`
normalizes to the root, regardless of the bucket and before any other
state check; otherwise any `getinfo` failure (in particular
`ResourceNotFound` for an absent path or an unmarked parent) propagates
unchanged; a path resolving to a file raises `DirectoryExpected`; a
non-empty directory raises `DirectoryNotEmpty`; and otherwise exactly
the marker blob at the dir-key is deleted, leaving the path absent. -/
theorem claim_C6_removedir_cases :
    ∀ (pfx : Str) (bkt : Bucket) (p np : Str),
      validatepath p = .ok np →
      ((np = ['/'] → removedirModel pfx bkt p = .error .removeRootError) ∧
       (np ≠ ['/'] →
         ((∀ e, getinfoModel pfx bkt np true = .error e →
             removedirModel pfx bkt p = .error e) ∧
          (∀ i, getinfoModel pfx bkt np true = .ok i → i.is_dir = false →
             removedirModel pfx bkt p = .error .directoryExpected) ∧
          (∀ i, getinfoModel pfx bkt np true = .ok i → i.is_dir = true →
             isemptyModel pfx bkt p = .ok false →
             removedirModel pfx bkt p = .error .directoryNotEmpty) ∧
          (∀ i dk, getinfoModel pfx bkt np true = .ok i → i.is_dir = true →
             isemptyModel pfx bkt p = .ok true →
             pathToDirKey pfx np = .ok dk →
             (getBlob bkt dk).isSome = true →
             removedirModel pfx bkt p = .ok (eraseBlob bkt dk) ∧
             ((bkt.map Blob.name).Nodup →
               getBlob (eraseBlob bkt dk) dk = none))))) := by
  intro pfx bkt p np hv
  have hbase : removedirModel pfx bkt p =
      (if np = ['/'] then .error .removeRootError
       else
         match getinfoModel pfx bkt np true with
         | .error e => .error e
         | .ok info =>
           if info.is_dir = false then .error .directoryExpected
           else
             match isemptyModel pfx bkt p with
             | .error e => .error e
             | .ok emp =>
               if emp = false then .error .directoryNotEmpty
               else
                 match pathToDirKey pfx np with
                 | .error e => .error e
                 | .ok dk => deleteBlob bkt dk) := by
    unfold removedirModel
    cases hv2 : validatepath p with
    | error e => rw [hv2] at hv; exact absurd hv (by simp)
    | ok np2 =>
      rw [hv2] at hv
      injection hv with hnp2
      subst hnp2
      rfl
  constructor
  · intro hroot
    rw [hbase, if_pos hroot]
  · intro hnp
    rw [hbase, if_neg hnp]
    refine ⟨?_, ?_, ?_, ?_⟩
    · intro e he
      rw [he]
    · intro i hi hdir
      rw [hi]
      simp only []
      rw [hdir]
      simp
    · intro i hi hdir hemp
      rw [hi]
      simp only []
      rw [hdir]
      simp only [Bool.true_eq_false, if_false]
      rw [hemp]
      simp
    · intro i dk hi hdir hemp hdk hsome
      rw [hi]
      simp only []
      rw [hdir]
      simp only [Bool.true_eq_false, if_false]
      rw [hemp]
      simp only []
      rw [if_neg (by simp), hdk]
      simp only []
      unfold deleteBlob
      rw [if_pos hsome]
      exact ⟨rfl, fun hnd => getBlob_eraseBlob_self hnd⟩

theorem claim_C6_witness :
    validatepath "/foo".data = .ok "/foo".data ∧
    getinfoModel [] [⟨"foo/".data, []⟩] "/foo".data true = .ok (dirInfo "/foo".data) ∧
    isemptyModel [] [⟨"foo/".data, []⟩] "/foo".data = .ok true ∧
    removedirModel [] [⟨"foo/".data, []⟩] "/foo".data = .ok [] ∧
    getBlob ([] : Bucket) "foo/".data = none ∧
    removedirModel [] [] "/".data = .error .removeRootError := by
  have h := claim_C6_removedir_cases [] [⟨"foo/".data, []⟩] "/foo".data "/foo".data
    (by decide)
  have h2 := (h.2 (by decide)).2.2.2 (dirInfo "/foo".data) "foo/".data
    (by decide) (by decide) (by decide) (by decide) (by decide)
  have h3 := claim_C6_removedir_cases [] [] "/".data "/".data (by decide)
  refine ⟨by decide, by decide, by decide, ?_, by decide, h3.1 (by decide)⟩
  have := h2.1
  rw [this]
  decide

theorem ancList_nil : ancList [] = [] := rfl

theorem ancList_concat (ds : List Str) (d : Str) :
    ancList (ds ++ [d]) = joinSlash (ds ++ [d]) :: ancList ds := by
  have h1 : (ds ++ [d]).reverse = d :: ds.reverse := by simp
  show ancListRev (ds ++ [d]).reverse = _
  rw [h1]
  show joinSlash ((d :: ds.reverse).reverse) :: ancListRev ds.reverse = _
  have h2 : joinSlash ((d :: ds.reverse).reverse) = joinSlash (ds ++ [d]) := by simp
  rw [h2]
  rfl

theorem forcedir_eq_append {d : Str} (h : endsWithSlash d = false) :
    forcedir d = d ++ ['/'] := by
  unfold forcedir
  rw [h]
  simp

theorem dirnameChain_nil (n : Nat) : dirnameChain (n + 1) [] [] = [] := by
  unfold dirnameChain
  rw [if_pos rfl]

theorem dirnameChain_join :
    ∀ (cs : List Str), Good cs →
      ∀ fuel, (joinSlash cs).length + 1 ≤ fuel →
        dirnameChain fuel (joinSlash cs) [] = ancList cs := by
  intro cs
  induction cs using List.reverseRecOn with
  | nil =>
    intro _ fuel hf
    cases fuel with
    | zero => omega
    | succ n => exact dirnameChain_nil n
  | append_singleton ds d ih =>
    intro hg fuel hf
    have hgd : Good ds := fun x hx => hg x (List.mem_append.mpr (Or.inl hx))
    have hgs : GoodSeg d := hg d (List.mem_append.mpr (Or.inr (List.mem_singleton.mpr rfl)))
    have hne : (ds ++ [d] : List Str) ≠ [] := by simp
    have hjne : joinSlash (ds ++ [d]) ≠ [] := joinSlash_ne_nil hg hne
    cases fuel with
    | zero => omega
    | succ n =>
      unfold dirnameChain
      rw [if_neg hjne, ancList_concat]
      congr 1
      by_cases hds : ds = []
      · subst hds
        simp only [List.nil_append]
        have hjd : joinSlash [d] = d := rfl
        rw [hjd, dirname_no_slash hgs.2.2.2, ancList_nil]
        cases n with
        | zero => rfl
        | succ n2 => exact dirnameChain_nil n2
      · rw [dirname_join_concat hgd hgs hds]
        exact ih hgd n (by
          rw [joinSlash_append hds (by simp)] at hf
          simp only [List.length_append, List.length_cons] at hf
          omega)

theorem mem_ancList_of_take :
    ∀ {cs : List Str} {i : Nat}, 1 ≤ i → i ≤ cs.length →
      joinSlash (cs.take i) ∈ ancList cs := by
  intro cs
  induction cs using List.reverseRecOn with
  | nil =>
    intro i h1 h2
    simp at h2
    omega
  | append_singleton ds d ih =>
    intro i h1 h2
    rw [ancList_concat]
    by_cases hi : i ≤ ds.length
    · rw [List.take_append_of_le_length hi]
      exact List.mem_cons_of_mem _ (ih h1 hi)
    · have hieq : i = ds.length + 1 := by
        simp at h2
        omega
      rw [hieq]
      have : (ds ++ [d] : List Str).take (ds.length + 1) = ds ++ [d] := by
        apply List.take_of_length_le
        simp
      rw [this]
      exact List.mem_cons_self _ _

theorem mem_ancList_elim :
    ∀ {cs : List Str} {x : Str}, x ∈ ancList cs →
      ∃ i, 1 ≤ i ∧ i ≤ cs.length ∧ x = joinSlash (cs.take i) := by
  intro cs
  induction cs using List.reverseRecOn with
  | nil => intro x h; rw [ancList_nil] at h; simp at h
  | append_singleton ds d ih =>
    intro x h
    rw [ancList_concat] at h
    rcases List.mem_cons.mp h with h1 | h2
    · refine ⟨ds.length + 1, by omega, by simp, ?_⟩
      rw [h1]
      congr 1
      rw [List.take_of_length_le (by simp)]
    · obtain ⟨i, hi1, hi2, hx⟩ := ih h2
      refine ⟨i, hi1, by simp; omega, ?_⟩
      rw [hx, List.take_append_of_le_length hi2]

theorem impliedAncestors_join_file {cs : List Str} (hg : Good cs) (hne : cs ≠ []) :
    impliedAncestors (joinSlash cs) [] = ancList cs.dropLast := by
  unfold impliedAncestors
  induction cs using List.reverseRecOn with
  | nil => exact absurd rfl hne
  | append_singleton ds d ih =>
    have hgd : Good ds := fun x hx => hg x (List.mem_append.mpr (Or.inl hx))
    have hgs : GoodSeg d := hg d (List.mem_append.mpr (Or.inr (List.mem_singleton.mpr rfl)))
    rw [List.dropLast_concat]
    by_cases hds : ds = []
    · subst hds
      simp only [List.nil_append]
      have hjd : joinSlash [d] = d := rfl
      rw [hjd, dirname_no_slash hgs.2.2.2, ancList_nil]
      obtain ⟨a, t, hd2, -⟩ := goodSeg_head_not_slash hgs
      rw [hd2]
      exact dirnameChain_nil _
    · rw [dirname_join_concat hgd hgs hds]
      apply dirnameChain_join ds hgd
      rw [joinSlash_append hds (by simp)]
      simp only [List.length_append, List.length_cons]
      omega

theorem impliedAncestors_join_marker {cs : List Str} (hg : Good cs) (hne : cs ≠ []) :
    impliedAncestors (joinSlash cs ++ ['/']) [] = ancList cs := by
  unfold impliedAncestors
  rw [dirname_join_marker hg hne]
  apply dirnameChain_join cs hg
  simp

theorem listBlobsP_nil_pre (bkt : Bucket) : listBlobsP bkt [] = bkt := by
  unfold listBlobsP
  induction bkt with
  | nil => rfl
  | cons b rest ih =>
    rw [List.filter_cons_of_pos (by cases hb : b.name <;> rfl)]
    rw [ih]

theorem allDirs_root_eval (names : List Str) :
    allDirs names [] = (names.map (fun n => impliedAncestors n [])).flatten := by
  unfold allDirs
  rw [if_neg (by decide)]
  simp

theorem mem_allDirs_root {names : List Str} {d : Str} :
    d ∈ allDirs names [] ↔ ∃ n, n ∈ names ∧ d ∈ impliedAncestors n [] := by
  rw [allDirs_root_eval]
  constructor
  · intro h
    obtain ⟨l, hl, hdl⟩ := List.mem_flatten.mp h
    obtain ⟨n, hn, hln⟩ := List.mem_map.mp hl
    refine ⟨n, hn, ?_⟩
    rw [← hln] at hdl
    exact hdl
  · intro h
    obtain ⟨n, hn, hdn⟩ := h
    exact List.mem_flatten.mpr ⟨impliedAncestors n [], List.mem_map.mpr ⟨n, hn, rfl⟩, hdn⟩

theorem mem_markedDirs {names : List Str} {d : Str} :
    d ∈ markedDirs names ↔
      ∃ m, m ∈ names ∧ endsWithSlash m = true ∧ dirname m = d := by
  unfold markedDirs
  constructor
  · intro h
    obtain ⟨m, hm, hmd⟩ := List.mem_map.mp h
    rw [List.mem_filter] at hm
    exact ⟨m, hm.1, hm.2, hmd⟩
  · intro h
    obtain ⟨m, hm, hends, hmd⟩ := h
    exact List.mem_map.mpr ⟨m, List.mem_filter.mpr ⟨hm, hends⟩, hmd⟩

theorem getBlob_some_mem {bkt : Bucket} {k : Str} {b : Blob}
    (h : getBlob bkt k = some b) : b ∈ bkt ∧ b.name = k := by
  unfold getBlob at h
  refine ⟨List.mem_of_find?_eq_some h, ?_⟩
  have := List.find?_some h
  simpa using this

theorem fixStorageModel_root_eval (bkt : Bucket) :
    fixStorageModel bkt [] =
      ((allDirs (bkt.map Blob.name) []).filter
          (fun d => d ∉ markedDirs (bkt.map Blob.name))).foldl
        (fun acc d => putBlob acc (forcedir d) []) bkt := by
  unfold fixStorageModel
  rw [listBlobsP_nil_pre]

theorem allDirs_root_shape {bkt : Bucket} (hcan : CanonicalBucket bkt) {d : Str}
    (hd : d ∈ allDirs (bkt.map Blob.name) []) :
    ∃ es, Good es ∧ es ≠ [] ∧ d = joinSlash es := by
  obtain ⟨n, hn, hdn⟩ := mem_allDirs_root.mp hd
  obtain ⟨b2, hb2, hb2name⟩ := List.mem_map.mp hn
  obtain ⟨cs, hgcs, hcne, hform⟩ := hcan b2 hb2
  rcases hform with h1 | h2
  · rw [← hb2name, h1, impliedAncestors_join_file hgcs hcne] at hdn
    obtain ⟨i, hi1, hi2, hx⟩ := mem_ancList_elim hdn
    refine ⟨cs.dropLast.take i, ?_, ?_, hx⟩
    · intro x hx2
      exact hgcs x (List.dropLast_subset _ (List.take_subset _ _ hx2))
    · intro he
      rw [he] at hx
      rcases (List.take_eq_nil_iff).mp he with hz | hz
      · omega
      · rw [hz] at hi2
        simp at hi2
        omega
  · rw [← hb2name, h2, impliedAncestors_join_marker hgcs hcne] at hdn
    obtain ⟨i, hi1, hi2, hx⟩ := mem_ancList_elim hdn
    refine ⟨cs.take i, ?_, ?_, hx⟩
    · intro x hx2
      exact hgcs x (List.take_subset _ _ hx2)
    · intro he
      rcases (List.take_eq_nil_iff).mp he with hz | hz
      · omega
      · exact hcne hz

theorem fixStorage_marker_complete {bkt : Bucket} (hcan : CanonicalBucket bkt) :
    ∀ b ∈ bkt, ∀ d ∈ impliedAncestors b.name [],
      (getBlob (fixStorageModel bkt []) (forcedir d)).isSome = true := by
  intro b hb d hd
  rw [fixStorageModel_root_eval]
  have hdall : d ∈ allDirs (bkt.map Blob.name) [] :=
    mem_allDirs_root.mpr ⟨b.name, List.mem_map.mpr ⟨b, hb, rfl⟩, hd⟩
  obtain ⟨es, hges, hesne, hdjoin⟩ := allDirs_root_shape hcan hdall
  have hdends : endsWithSlash d = false := by
    rw [hdjoin]
    exact endsWith_joinSlash_false hges
  by_cases hmk : d ∈ markedDirs (bkt.map Blob.name)
  · obtain ⟨m, hmmem, hmends, hmdir⟩ := mem_markedDirs.mp hmk
    obtain ⟨b2, hb2, hb2name⟩ := List.mem_map.mp hmmem
    obtain ⟨cs2, hg2, hne2, hform2⟩ := hcan b2 hb2
    have hm2 : m = joinSlash cs2 ++ ['/'] := by
      rcases hform2 with hA | hB
      · exfalso
        rw [← hb2name, hA] at hmends
        rw [endsWith_joinSlash_false hg2] at hmends
        exact absurd hmends (by simp)
      · rw [← hb2name, hB]
    have hdm : joinSlash cs2 = d := by
      rw [hm2, dirname_join_marker hg2 hne2] at hmdir
      exact hmdir
    have hb2isfd : b2.name = forcedir d := by
      rw [hb2name, hm2, hdm, forcedir_eq_append hdends]
    exact foldPut_isSome_mono (getBlob_mem_isSome b2 hb2 hb2isfd)
  · apply foldPut_isSome_of_mem
    rw [List.mem_filter]
    refine ⟨hdall, by simp [hmk]⟩

theorem fixStorage_nondestructive {bkt : Bucket} (hcan : CanonicalBucket bkt) :
    ∀ (k : Str) (b : Blob), getBlob bkt k = some b →
      getBlob (fixStorageModel bkt []) k = some b := by
  intro k b h
  rw [fixStorageModel_root_eval]
  rw [foldPut_preserves_get ?_]
  · exact h
  · intro d hdmem hfk
    rw [List.mem_filter] at hdmem
    obtain ⟨hdall, hdnm⟩ := hdmem
    have hdnm2 : d ∉ markedDirs (bkt.map Blob.name) := by simpa using hdnm
    obtain ⟨hbmem, hbname⟩ := getBlob_some_mem h
    obtain ⟨es, hges, hesne, hdjoin⟩ := allDirs_root_shape hcan hdall
    have hdends : endsWithSlash d = false := by
      rw [hdjoin]
      exact endsWith_joinSlash_false hges
    have hkval : k = d ++ ['/'] := by
      rw [← hfk, forcedir_eq_append hdends]
    obtain ⟨cs3, hg3, hne3, hform3⟩ := hcan b hbmem
    have hb3 : b.name = joinSlash cs3 ++ ['/'] := by
      rcases hform3 with hA | hB
      · exfalso
        have : endsWithSlash b.name = true := by
          rw [hbname, hkval]
          unfold endsWithSlash
          rw [List.getLast?_concat]
          decide
        rw [hA, endsWith_joinSlash_false hg3] at this
        exact absurd this (by simp)
      · exact hB
    have hdcs3 : joinSlash cs3 = d := by
      have h2 : joinSlash cs3 ++ ['/'] = d ++ ['/'] := by
        rw [← hb3, hbname, hkval]
      exact List.append_cancel_right h2
    apply hdnm2
    apply mem_markedDirs.mpr
    refine ⟨b.name, List.mem_map.mpr ⟨b, hbmem, rfl⟩, ?_, ?_⟩
    · rw [hb3]
      unfold endsWithSlash
      rw [List.getLast?_concat]
      decide
    · rw [hb3, dirname_join_marker hg3 hne3, hdcs3]

/-- C4: after `fix_storage` runs (bucket-root filesystem), every
ancestor directory implied by any object's key carries a marker object;
every object that already existed — in particular every pre-existing
marker — is left byte-identical, never overwritten; and on the concrete
scenario of objects `foo/test`, `foo/bar/test`, `foo/baz/test`,
`foo/bar/egg/test` with no markers, afterwards each of `""`, `foo`,
`foo/bar`, `foo/baz`, `foo/bar/egg` reports `isdir = true`.  The
general parts assume the canonical on-bucket name layout the system
itself maintains. -/
theorem claim_C4_fix_storage_repair :
    (∀ (bkt : Bucket), CanonicalBucket bkt →
       ∀ b ∈ bkt, ∀ d ∈ impliedAncestors b.name [],
         (getBlob (fixStorageModel bkt []) (forcedir d)).isSome = true) ∧
    (∀ (bkt : Bucket), CanonicalBucket bkt →
       ∀ (k : Str) (b : Blob), getBlob bkt k = some b →
         getBlob (fixStorageModel bkt []) k = some b) ∧
    (isdirModel [] (fixStorageModel [⟨"foo/test".data, [1]⟩,
        ⟨"foo/bar/test".data, [2]⟩, ⟨"foo/baz/test".data, [3]⟩,
        ⟨"foo/bar/egg/test".data, [4]⟩] []) "".data = .ok true ∧
     isdirModel [] (fixStorageModel [⟨"foo/test".data, [1]⟩,
        ⟨"foo/bar/test".data, [2]⟩, ⟨"foo/baz/test".data, [3]⟩,
        ⟨"foo/bar/egg/test".data, [4]⟩] []) "foo".data = .ok true ∧
     isdirModel [] (fixStorageModel [⟨"foo/test".data, [1]⟩,
        ⟨"foo/bar/test".data, [2]⟩, ⟨"foo/baz/test".data, [3]⟩,
        ⟨"foo/bar/egg/test".data, [4]⟩] []) "foo/bar".data = .ok true ∧
     isdirModel [] (fixStorageModel [⟨"foo/test".data, [1]⟩,
        ⟨"foo/bar/test".data, [2]⟩, ⟨"foo/baz/test".data, [3]⟩,
        ⟨"foo/bar/egg/test".data, [4]⟩] []) "foo/baz".data = .ok true ∧
     isdirModel [] (fixStorageModel [⟨"foo/test".data, [1]⟩,
        ⟨"foo/bar/test".data, [2]⟩, ⟨"foo/baz/test".data, [3]⟩,
        ⟨"foo/bar/egg/test".data, [4]⟩] []) "foo/bar/egg".data = .ok true) ∧
    (getBlob (fixStorageModel [⟨"foo/".data, [9, 9]⟩, ⟨"foo/test".data, [1]⟩] [])
        "foo/".data = some ⟨"foo/".data, [9, 9]⟩) := by
  refine ⟨fun bkt hcan => fixStorage_marker_complete hcan,
          fun bkt hcan => fixStorage_nondestructive hcan,
          by decide, by decide⟩

theorem claim_C4_witness :
    (getBlob (fixStorageModel [⟨"foo/test".data, [1]⟩] []) "foo/".data).isSome
      = true ∧
    getBlob (fixStorageModel [⟨"foo/test".data, [1]⟩] []) "foo/test".data
      = some ⟨"foo/test".data, [1]⟩ := by
  have hcan : CanonicalBucket [⟨"foo/test".data, [1]⟩] := by
    intro b hb
    rw [List.mem_singleton] at hb
    subst hb
    exact ⟨["foo".data, "test".data], by decide, by decide, Or.inl (by decide)⟩
  constructor
  · have h := claim_C4_fix_storage_repair.1 [⟨"foo/test".data, [1]⟩] hcan
      ⟨"foo/test".data, [1]⟩ (List.mem_singleton.mpr rfl) "foo".data (by decide)
    rw [show forcedir "foo".data = "foo/".data from by decide] at h
    exact h
  · exact claim_C4_fix_storage_repair.2.1 [⟨"foo/test".data, [1]⟩] hcan
      "foo/test".data ⟨"foo/test".data, [1]⟩ (by decide)
